import Mathlib

/-!
# Verification of the plinko-extractor core against its specification

Shallow embedding of the repository's core algorithms:

* `src/plinko/src/binomial_tee.rs` — baseline constant-time binomial sampler
* `src/plinko/src/binomial_leveled.rs` — per-level constant-time sampler
* `src/plinko/src/binomial_gaussian.rs` — Gaussian-approximation sampler
* `src/plinko/src/binomial_precomputed.rs` — precomputed-CDF sampler
* `src/state-syncer/src/iprf.rs` — Swap-or-Not PRP, PMNS tree router, iPRF

Modelling conventions:

* Rust `u64` / `usize` values are modelled as `ℕ`.  The algorithms keep all
  quantities inside their intended ranges (counts bounded by the domain size),
  so no wrap-around arithmetic occurs on the verified paths and no `% 2^64`
  reduction is inserted.
* Rust `f64` values are modelled as exact reals (`ℝ`); `ln`, `exp`, `sqrt`
  become `Real.log`, `Real.exp`, `Real.sqrt` and decimal literals become the
  corresponding rationals.  This is the standard real-number idealization of
  floating-point code: every structural property proved below is independent
  of rounding, and properties that hinge on concrete rounding behaviour are
  reported as such rather than proved.
* The AES-128 block cipher and SHA-256 are external crates (the specification
  treats them as opaque external collaborators), so they enter the model as
  unconstrained function parameters; every theorem quantifies over them.
* `src/plinko/src/constant_time.rs` is not part of the source tree; its
  branchless primitives are modelled from §4.1 of the specification.
-/

/-! ## Oblivious primitives (spec §4.1) -/

/-- Modelled from the spec: `constant_time.rs` is absent from the source tree.
§4.1: `ct_eq` on integers produces a 0/1 mask value. -/
def ct_eq_u64 (a b : ℕ) : ℕ := if a = b then 1 else 0

/-- Modelled from the spec: §4.1 `ct_le` on integers, 0/1 mask. -/
def ct_le_u64 (a b : ℕ) : ℕ := if a ≤ b then 1 else 0

/-- Modelled from the spec: §4.1 `ct_lt` on integers, 0/1 mask. -/
def ct_lt_u64 (a b : ℕ) : ℕ := if a < b then 1 else 0

/-- Modelled from the spec: §4.1 `ct_f64_le` on doubles, 0/1 mask. -/
noncomputable def ct_f64_le (a b : ℝ) : ℕ := if a ≤ b then 1 else 0

/-- Modelled from the spec: §4.1 `ct_f64_lt` on doubles, 0/1 mask. -/
noncomputable def ct_f64_lt (a b : ℝ) : ℕ := if a < b then 1 else 0

/-- Modelled from the spec: §4.1 `ct_select_u64(mask, a, b)` returns `a` if
mask = 1 else `b`. -/
def ct_select_u64 (mask a b : ℕ) : ℕ := if mask = 1 then a else b

/-- Modelled from the spec: §4.1 `ct_select_f64(mask, a, b)` returns `a` if
mask = 1 else `b`. -/
noncomputable def ct_select_f64 (mask : ℕ) (a b : ℝ) : ℝ := if mask = 1 then a else b

/-- Modelled from the spec: §4.1 `ct_min` on u64. -/
def ct_min_u64 (a b : ℕ) : ℕ := min a b

/-- Modelled from the spec: §4.1 `ct_max` on u64. -/
def ct_max_u64 (a b : ℕ) : ℕ := max a b

/-- Modelled from the spec: §4.1 `ct_saturating_sub` on u64 (truncated `ℕ`
subtraction is exactly u64 saturating subtraction). -/
def ct_saturating_sub_u64 (a b : ℕ) : ℕ := a - b

/-! ## Shared constant-time log-space inverse-CDF scan

`binomial_tee.rs` `inverse_cdf_ct`, `binomial_leveled.rs` `inverse_cdf_ct`,
`binomial_gaussian.rs` `sample_exact_ct` (its loop) and
`binomial_precomputed.rs` `inverse_cdf_fallback_ct` (its loop) are textually
identical Rust loops, differing only in the iteration bound.  They are
embedded once, parameterized by that bound. -/

/-- State of the u-latch log-space scan: `(log_pmf, cdf, result, found)`. -/
structure ScanState where
  logPmf : ℝ
  cdf : ℝ
  result : ℕ
  found : ℕ

/-- The iteration space of a constant-time scan with bound `bound`:
`for k in 0..=bound`. -/
def scanIters (bound : ℕ) : List ℕ := List.range (bound + 1)

/-- One iteration of the log-space constant-time inverse-CDF loop
(`binomial_tee.rs` lines 81–105 and its three textual clones).
`n` is the (already clamped) count, `lpq` is `log_p - log_q`,
`u` the uniform draw. -/
noncomputable def ctStep (n : ℕ) (lpq u : ℝ) (st : ScanState) (k : ℕ) : ScanState :=
  let k_in_range := ct_le_u64 k n
  let log_factor : ℝ :=
    if k = 0 then 0
    else Real.log ((ct_saturating_sub_u64 n (k - 1) : ℝ) / (k : ℝ)) + lpq
  let new_log_pmf := if k = 0 then st.logPmf else st.logPmf + log_factor
  let logPmf := ct_select_f64 k_in_range new_log_pmf st.logPmf
  let pmf := Real.exp logPmf
  let valid_pmf := ct_select_f64 k_in_range pmf 0
  let cdf := st.cdf + valid_pmf
  let u_le_cdf := ct_f64_le u cdf
  let is_new_result := u_le_cdf &&& (1 - st.found) &&& k_in_range
  { logPmf := logPmf
    cdf := cdf
    result := ct_select_u64 is_new_result k st.result
    found := st.found ||| is_new_result }

/-- The full constant-time log-space inverse CDF: initialisation, the loop
`for k in 0..=bound`, and the not-found fallback `n`.  `n` must already be
clamped by the caller (each Rust wrapper does `ct_min` first). -/
noncomputable def logCdfScan (bound n : ℕ) (p u : ℝ) : ℕ :=
  let q := 1 - p
  let log_q := Real.log q
  let log_p := Real.log p
  let lpq := log_p - log_q
  let init : ScanState := ⟨(n : ℝ) * log_q, 0, 0, 0⟩
  let fin := (scanIters bound).foldl (ctStep n lpq u) init
  ct_select_u64 fin.found fin.result n

/-- The uniform input `u = (prf_output + 0.5) / 2⁶⁴` used by every sampler. -/
noncomputable def prfUniform (prf : ℕ) : ℝ := ((prf : ℝ) + 1/2) / 2 ^ 64

/-! ## Baseline sampler (`binomial_tee.rs`) -/

/-- `BinomialSamplerTee { max_count }`. -/
structure BinomialSamplerTee where
  maxCount : ℕ

/-- `BinomialSamplerTee::new`. -/
def BinomialSamplerTee.new (maxCount : ℕ) : BinomialSamplerTee := ⟨maxCount⟩

/-- `BinomialSamplerTee::inverse_cdf_ct` (lines 67–109): clamp `n` to
`max_count`, then the shared scan with bound `max_count`. -/
noncomputable def BinomialSamplerTee.inverseCdfCt
    (s : BinomialSamplerTee) (n : ℕ) (p u : ℝ) : ℕ :=
  logCdfScan s.maxCount (ct_min_u64 n s.maxCount) p u

/-- `BinomialSamplerTee::sample` (lines 39–63). -/
noncomputable def BinomialSamplerTee.sample
    (s : BinomialSamplerTee) (count num denom prf : ℕ) : ℕ :=
  if denom = 0 ∨ num = 0 then 0
  else if denom ≤ num then count
  else
    let p : ℝ := (num : ℝ) / (denom : ℝ)
    let u := prfUniform prf
    let use_complement := (1 : ℝ)/2 < p
    let p2 := if use_complement then 1 - p else p
    let count_is_zero := ct_eq_u64 count 0
    let k := s.inverseCdfCt count p2 u
    let result := if use_complement then count - k else k
    ct_select_u64 count_is_zero 0 result

/-! ## Leveled sampler (`binomial_leveled.rs`) -/

/-- `MAX_TREE_DEPTH = 32`. -/
def MAX_TREE_DEPTH : ℕ := 32

/-- `LeveledBinomialSamplerTee { level_bounds, num_levels }`.  The fixed
array `[u64; 32]` is modelled as a function; entries not written by the
constructor are the array's initial `0`. -/
structure LeveledBinomialSamplerTee where
  levelBounds : ℕ → ℕ
  numLevels : ℕ

/-- The constructor's repeated halving: `max_balls` after `L` iterations of
`max_balls = (max_balls + 1) / 2` starting from `n`. -/
def iterHalf (L n : ℕ) : ℕ := (fun x => (x + 1) / 2)^[L] n

/-- `LeveledBinomialSamplerTee::new` (lines 35–57): tree depth is
`ceil(log2 m)` (1 when `m ≤ 1`), capped at `MAX_TREE_DEPTH`;
`level_bounds[L]` holds `max_balls` after `L` halvings of `n`. -/
def LeveledBinomialSamplerTee.new (n m : ℕ) : LeveledBinomialSamplerTee :=
  let tree_depth := if m ≤ 1 then 1 else Nat.clog 2 m
  let num_levels := min tree_depth MAX_TREE_DEPTH
  { levelBounds := fun L => if L < num_levels then iterHalf L n else 0
    numLevels := num_levels }

/-- `LeveledBinomialSamplerTee::inverse_cdf_ct` (lines 95–134): clamp `n` to
`max_n`, then the shared scan with bound `max_n`. -/
noncomputable def LeveledBinomialSamplerTee.inverseCdfCt
    (_s : LeveledBinomialSamplerTee) (n maxN : ℕ) (p u : ℝ) : ℕ :=
  logCdfScan maxN (ct_min_u64 n maxN) p u

/-- `LeveledBinomialSamplerTee::sample` (lines 63–91). -/
noncomputable def LeveledBinomialSamplerTee.sample
    (s : LeveledBinomialSamplerTee) (level count num denom prf : ℕ) : ℕ :=
  if denom = 0 ∨ num = 0 then 0
  else if denom ≤ num then count
  else
    let max_count := if level < s.numLevels then s.levelBounds level
                     else s.levelBounds (s.numLevels - 1)
    let p : ℝ := (num : ℝ) / (denom : ℝ)
    let u := prfUniform prf
    let use_complement := (1 : ℝ)/2 < p
    let p2 := if use_complement then 1 - p else p
    let count_is_zero := ct_eq_u64 count 0
    let k := s.inverseCdfCt count max_count p2 u
    let result := if use_complement then count - k else k
    ct_select_u64 count_is_zero 0 result

/-- `LeveledBinomialSamplerTee::level_bound` (lines 137–143). -/
def LeveledBinomialSamplerTee.levelBound
    (s : LeveledBinomialSamplerTee) (level : ℕ) : ℕ :=
  if level < s.numLevels then s.levelBounds level else 0

/-! ## Gaussian sampler (`binomial_gaussian.rs`) -/

/-- `GAUSSIAN_THRESHOLD = 10.0`. -/
noncomputable def GAUSSIAN_THRESHOLD : ℝ := 10

/-- Abramowitz–Stegun 26.2.23 coefficient `C0 = 2.515517`. -/
noncomputable def AS_C0 : ℝ := 2.515517
/-- Coefficient `C1 = 0.802853`. -/
noncomputable def AS_C1 : ℝ := 0.802853
/-- Coefficient `C2 = 0.010328`. -/
noncomputable def AS_C2 : ℝ := 0.010328
/-- Coefficient `D1 = 1.432788`. -/
noncomputable def AS_D1 : ℝ := 1.432788
/-- Coefficient `D2 = 0.189269`. -/
noncomputable def AS_D2 : ℝ := 0.189269
/-- Coefficient `D3 = 0.001308`. -/
noncomputable def AS_D3 : ℝ := 0.001308

/-- `GaussianBinomialSamplerTee { fallback_max_count }`. -/
structure GaussianBinomialSamplerTee where
  fallbackMaxCount : ℕ

/-- `GaussianBinomialSamplerTee::new`. -/
def GaussianBinomialSamplerTee.new (fallbackMaxCount : ℕ) : GaussianBinomialSamplerTee :=
  ⟨fallbackMaxCount⟩

/-- `GaussianBinomialSamplerTee::inv_norm_cdf_ct` (lines 104–123). -/
noncomputable def GaussianBinomialSamplerTee.invNormCdfCt
    (_s : GaussianBinomialSamplerTee) (u : ℝ) : ℝ :=
  let use_upper := ct_f64_lt (1/2) u
  let p := ct_select_f64 use_upper (1 - u) u
  let p_safe := max p (1/10 ^ 15)
  let t := Real.sqrt (-2 * Real.log p_safe)
  let numerator := AS_C0 + t * (AS_C1 + t * AS_C2)
  let denominator := 1 + t * (AS_D1 + t * (AS_D2 + t * AS_D3))
  let z_neg := t - numerator / denominator
  ct_select_f64 use_upper z_neg (-z_neg)

/-- `GaussianBinomialSamplerTee::sample_gaussian_ct` (lines 71–94): the
rounded/clamped Normal(np, npq) quantile.  Rust rounds the f64, clamps to
`[0, n]`, then casts to u64; modelled as `round : ℝ → ℤ` followed by the
clamp and `Int.toNat`. -/
noncomputable def GaussianBinomialSamplerTee.sampleGaussianCt
    (s : GaussianBinomialSamplerTee) (n : ℕ) (p u : ℝ) : ℕ :=
  let n_f64 : ℝ := n
  let q := 1 - p
  let mu := n_f64 * p
  let sigma2 := n_f64 * p * q
  let sigma := Real.sqrt sigma2
  let z := s.invNormCdfCt u
  let x_continuous := mu + sigma * z
  let x_rounded : ℤ := round x_continuous
  let x_clamped : ℤ := min (max x_rounded 0) (n : ℤ)
  x_clamped.toNat

/-- `GaussianBinomialSamplerTee::sample_exact_ct` (lines 127–175): clamp `n`,
apply the symmetry reduction internally, run the shared scan with bound
`fallback_max_count`, and undo the complement around the clamped `n`. -/
noncomputable def GaussianBinomialSamplerTee.sampleExactCt
    (s : GaussianBinomialSamplerTee) (n0 : ℕ) (p : ℝ) (u : ℝ) : ℕ :=
  let n := ct_min_u64 n0 s.fallbackMaxCount
  let use_complement := (1 : ℝ)/2 < p
  let p_adj := if use_complement then 1 - p else p
  let k := logCdfScan s.fallbackMaxCount n p_adj u
  if use_complement then n - k else k

/-- `GaussianBinomialSamplerTee::sample` (lines 42–67): both the Gaussian and
the exact fallback results are computed, and the Gaussian one is selected by
the mask `(10 < np) & (10 < n(1-p))`. -/
noncomputable def GaussianBinomialSamplerTee.sample
    (s : GaussianBinomialSamplerTee) (count num denom prf : ℕ) : ℕ :=
  if denom = 0 ∨ num = 0 then 0
  else if denom ≤ num then count
  else
    let p : ℝ := (num : ℝ) / (denom : ℝ)
    let u := prfUniform prf
    let n_f64 : ℝ := count
    let np := n_f64 * p
    let nq := n_f64 * (1 - p)
    let use_gaussian := ct_f64_lt GAUSSIAN_THRESHOLD np &&& ct_f64_lt GAUSSIAN_THRESHOLD nq
    let gaussian_result := s.sampleGaussianCt count p u
    let exact_result := s.sampleExactCt count p u
    ct_select_u64 use_gaussian gaussian_result exact_result

/-! ## Precomputed-CDF sampler (`binomial_precomputed.rs`) -/

/-- `PRECOMPUTE_MAX_N = 256`. -/
def PRECOMPUTE_MAX_N : ℕ := 256

/-- The running binomial coefficient of the `CDF_TABLES` build loop
(`binomial_precomputed.rs` lines 32–41): starts at `1.0` and is multiplied by
`(n - k) / (k + 1)` after emitting entry `k`. -/
noncomputable def binomCoeffSeq (n : ℕ) : ℕ → ℝ
  | 0 => 1
  | k + 1 => binomCoeffSeq n k * ((n - k : ℕ) : ℝ) / ((k + 1 : ℕ) : ℝ)

/-- The accumulating CDF of the `CDF_TABLES` build loop:
`cdf += binom_coeff * scale` with `scale = 0.5^n`. -/
noncomputable def cdfAcc (n : ℕ) : ℕ → ℝ
  | 0 => binomCoeffSeq n 0 * (1/2 : ℝ) ^ n
  | k + 1 => cdfAcc n k + binomCoeffSeq n (k + 1) * (1/2 : ℝ) ^ n

/-- `CDF_TABLES[n][k]` (`binomial_precomputed.rs` lines 22–51).  For `n = 0`
only entry `[0][0] = 1.0` is written (the `k > n` fill loop is in the `else`
branch), so `[0][k] = 0.0` for `k ≥ 1`; for `n ≥ 1` entries up to `n` hold
the accumulated CDF and entries beyond hold `1.0`. -/
noncomputable def CDF_TABLES (n k : ℕ) : ℝ :=
  if n = 0 then (if k = 0 then 1 else 0)
  else if k ≤ n then cdfAcc n k
  else 1

/-- `PrecomputedBinomialSamplerTee { fallback_max_count }`. -/
structure PrecomputedBinomialSamplerTee where
  fallbackMaxCount : ℕ

/-- `PrecomputedBinomialSamplerTee::new`. -/
def PrecomputedBinomialSamplerTee.new (fallbackMaxCount : ℕ) : PrecomputedBinomialSamplerTee :=
  ⟨fallbackMaxCount⟩

/-- One iteration of the precomputed-table latch scan
(`binomial_precomputed.rs` lines 109–117); `f k` is the table row read
`table[k]`. -/
noncomputable def latchStep (n : ℕ) (f : ℕ → ℝ) (u : ℝ) (st : ℕ × ℕ) (k : ℕ) : ℕ × ℕ :=
  let k_in_range := ct_le_u64 k n
  let cdf_k := f k
  let u_le_cdf := ct_f64_le u cdf_k
  let is_new_result := u_le_cdf &&& (1 - st.2) &&& k_in_range
  (ct_select_u64 is_new_result k st.1, st.2 ||| is_new_result)

/-- `PrecomputedBinomialSamplerTee::inverse_cdf_precomputed_ct`
(lines 102–120): select row `min n 256`, scan `k = 0..=256` with the found
latch, fall back to `n`. -/
noncomputable def PrecomputedBinomialSamplerTee.inverseCdfPrecomputedCt
    (_s : PrecomputedBinomialSamplerTee) (n : ℕ) (u : ℝ) : ℕ :=
  let n_idx := min n PRECOMPUTE_MAX_N
  let fin := (scanIters PRECOMPUTE_MAX_N).foldl (latchStep n (CDF_TABLES n_idx) u) (0, 0)
  ct_select_u64 fin.2 fin.1 n

/-- `PrecomputedBinomialSamplerTee::inverse_cdf_fallback_ct` (lines 124–174):
clamp `n`, symmetry reduction, shared scan with bound `fallback_max_count`,
complement around the clamped `n`. -/
noncomputable def PrecomputedBinomialSamplerTee.inverseCdfFallbackCt
    (s : PrecomputedBinomialSamplerTee) (n0 : ℕ) (p : ℝ) (u : ℝ) : ℕ :=
  let n := ct_min_u64 n0 s.fallbackMaxCount
  let use_complement := (1 : ℝ)/2 < p
  let p_adj := if use_complement then 1 - p else p
  let k := logCdfScan s.fallbackMaxCount n p_adj u
  if use_complement then n - k else k

/-- `PrecomputedBinomialSamplerTee::sample_half` (lines 68–76). -/
noncomputable def PrecomputedBinomialSamplerTee.sampleHalf
    (s : PrecomputedBinomialSamplerTee) (count prf : ℕ) : ℕ :=
  let u := prfUniform prf
  if count ≤ PRECOMPUTE_MAX_N then s.inverseCdfPrecomputedCt count u
  else s.inverseCdfFallbackCt count (1/2) u

/-- `PrecomputedBinomialSamplerTee::sample` (lines 80–96). -/
noncomputable def PrecomputedBinomialSamplerTee.sample
    (s : PrecomputedBinomialSamplerTee) (count num denom prf : ℕ) : ℕ :=
  if denom = 0 ∨ num = 0 then 0
  else if denom ≤ num then count
  else if num * 2 = denom ∧ count ≤ PRECOMPUTE_MAX_N then s.sampleHalf count prf
  else
    let p : ℝ := (num : ℝ) / (denom : ℝ)
    let u := prfUniform prf
    s.inverseCdfFallbackCt count p u

/-! ## Swap-or-Not PRP (`state-syncer/src/iprf.rs` lines 16–95)

The AES-128 cipher is an external crate; its two uses (round-key derivation
and the swap bit) are abstracted as the unconstrained functions `encRK`
(the first 8 output bytes of the round-key block, before the `% domain`
reduction) and `prfBit` (the low bit of the first output byte). -/

/-- `SwapOrNot { cipher, domain, num_rounds }` with the cipher abstracted. -/
structure SwapOrNot where
  encRK : ℕ → ℕ
  prfBit : ℕ → ℕ → Bool
  domain : ℕ
  numRounds : ℕ

/-- `SwapOrNot::new`: `num_rounds = ceil(log2 domain) * 6 + 6`.  The Rust
code computes the ceiling log through `f64::log2`; it is modelled exactly as
`Nat.clog 2`. -/
def SwapOrNot.new (encRK : ℕ → ℕ) (prfBit : ℕ → ℕ → Bool) (domain : ℕ) : SwapOrNot :=
  { encRK := encRK
    prfBit := prfBit
    domain := domain
    numRounds := Nat.clog 2 domain * 6 + 6 }

/-- `SwapOrNot::derive_round_key`: AES output reduced `% domain`. -/
def SwapOrNot.deriveRoundKey (prp : SwapOrNot) (r : ℕ) : ℕ :=
  prp.encRK r % prp.domain

/-- `SwapOrNot::round` (lines 64–76): the involutory Swap-or-Not round. -/
def SwapOrNot.round (prp : SwapOrNot) (roundNum x : ℕ) : ℕ :=
  let k_i := prp.deriveRoundKey roundNum
  let partner := (k_i + prp.domain - x % prp.domain) % prp.domain
  let canonical := max x partner
  if prp.prfBit roundNum canonical then partner else x

/-- `SwapOrNot::forward` (lines 79–85): rounds `0, 1, …, r-1`. -/
def SwapOrNot.forward (prp : SwapOrNot) (x : ℕ) : ℕ :=
  (List.range prp.numRounds).foldl (fun v r => prp.round r v) x

/-- `SwapOrNot::inverse` (lines 88–94): rounds `r-1, …, 1, 0`. -/
def SwapOrNot.inverse (prp : SwapOrNot) (y : ℕ) : ℕ :=
  (List.range prp.numRounds).foldr (fun r v => prp.round r v) y

/-! ## PMNS binomial inverse CDF (`state-syncer/src/iprf.rs` lines 237–324) -/

/-- `inv_normal_cdf` (lines 302–324): Beasley–Springer rational approximation
on `|p - 0.5| < 0.42`, crude `±2` outside, `±10` out of range. -/
noncomputable def invNormalCdf (p : ℝ) : ℝ :=
  if p ≤ 0 then -10
  else if 1 ≤ p then 10
  else
    let y := p - 1/2
    if |y| < 0.42 then
      let r := y * y
      y * (((-25.44106049637 * r + 41.39119773534) * r + -18.61500062529) * r + 2.50662823884) /
        ((((3.13082909833 * r + -21.06224101826) * r + 23.08336743743) * r + -8.47351093090) * r + 1)
    else if 0 < y then 2 else -2

/-- `Iprf::normal_approx_binomial` (lines 267–280). -/
noncomputable def normalApproxBinomial (n : ℕ) (p u : ℝ) : ℕ :=
  let mean := (n : ℝ) * p
  let variance := (n : ℝ) * p * (1 - p)
  let stddev := Real.sqrt variance
  let u_clamped := min (max u 0.001) 0.999
  let z := invNormalCdf u_clamped
  let result := mean + z * stddev
  if result < 0 then 0
  else if (n : ℝ) < result then n
  else (round result).toNat

/-- The linear-space CDF walk of `Iprf::binomial_inverse_cdf` (lines 257–264):
`prob` and `cum_prob` carried through `k = k0, k0+1, …, n-1`, returning
`k + 1` on the first `u ≤ cum_prob` and `n` if the walk ends. -/
noncomputable def bicLoop (n : ℕ) (p q u : ℝ) : ℕ → ℝ → ℝ → ℕ
  | k, prob, cum =>
    if _h : k < n then
      let prob2 := prob * ((n - k : ℕ) : ℝ) / ((k + 1 : ℕ) : ℝ) * p / q
      let cum2 := cum + prob2
      if u ≤ cum2 then k + 1 else bicLoop n p q u (k + 1) prob2 cum2
    else n
termination_by k _ _ => n - k

/-- `Iprf::binomial_inverse_cdf` (lines 237–265): guard cases, the normal
approximation for `n > 100`, otherwise the linear-space CDF walk starting
from `prob = q^n`. -/
noncomputable def binomialInverseCdf (n : ℕ) (p u : ℝ) : ℕ :=
  if u ≤ 0 then 0
  else if 1 ≤ u then n
  else if p = 0 then 0
  else if p = 1 then n
  else if n = 0 then 0
  else if 100 < n then normalApproxBinomial n p u
  else
    let q := 1 - p
    let prob := q ^ n
    let cum_prob := 0 + prob
    if u ≤ cum_prob then 0 else bicLoop n p q u 0 prob cum_prob

/-! ## iPRF (`state-syncer/src/iprf.rs` lines 97–300)

`encode_node` (SHA-256 over the node coordinates) and `prf_eval` (AES under
the master key) are abstracted as the unconstrained functions `encNode` and
`prfEvalRaw`. -/

/-- `INV_TWO_TO_53 = 1 / 2^53`. -/
noncomputable def INV_TWO_TO_53 : ℝ := 1 / 2 ^ 53

/-- `Iprf` with the two keyed primitives abstracted. -/
structure Iprf where
  prfEvalRaw : ℕ → ℕ
  encNode : ℕ → ℕ → ℕ → ℕ
  prp : SwapOrNot
  domain : ℕ
  range : ℕ

/-- `Iprf::new` (lines 110–132): the PRP subkey is derived from the master
key by SHA-256; since both the cipher and the hash are abstracted, the
constructor takes the master-keyed node PRF and the subkeyed PRP primitives
as parameters and builds the `SwapOrNot` instance over domain `n`. -/
def Iprf.new (prfEvalRaw : ℕ → ℕ) (encNode : ℕ → ℕ → ℕ → ℕ)
    (prpEncRK : ℕ → ℕ) (prpPrfBit : ℕ → ℕ → Bool) (n m : ℕ) : Iprf :=
  { prfEvalRaw := prfEvalRaw
    encNode := encNode
    prp := SwapOrNot.new prpEncRK prpPrfBit n
    domain := n
    range := m }

/-- The per-node uniform of `trace_ball` / `trace_ball_inverse`
(lines 175–179 and 216–219): node digest, AES evaluation, then
`u = ((prf_output >> 11) + 0.5) * 2⁻⁵³`. -/
noncomputable def Iprf.nodeUniform (ip : Iprf) (n low high : ℕ) : ℝ :=
  let node_id := ip.encNode low high n
  let prf_output := ip.prfEvalRaw node_id
  (((prf_output >>> 11 : ℕ) : ℝ) + 1/2) * INV_TWO_TO_53

/-- The per-node left-child count: `binomial_inverse_cdf(ball_count,
left_bins / total_bins, uniform)` (lines 169–181). -/
noncomputable def Iprf.leftCount (ip : Iprf) (n low high ballCount : ℕ) : ℕ :=
  let mid := (low + high) / 2
  let left_bins := mid - low + 1
  let total_bins := high - low + 1
  let p : ℝ := (left_bins : ℝ) / (total_bins : ℝ)
  binomialInverseCdf ballCount p (ip.nodeUniform n low high)

/-- The descent loop of `Iprf::trace_ball` (lines 168–193). -/
noncomputable def Iprf.descend (ip : Iprf) (n : ℕ) (low high ballCount ballIndex : ℕ) : ℕ :=
  if low < high then
    let mid := (low + high) / 2
    let left_count := ip.leftCount n low high ballCount
    if ballIndex < left_count then
      ip.descend n low mid left_count ballIndex
    else
      ip.descend n (mid + 1) high (ballCount - left_count) (ballIndex - left_count)
  else low
termination_by high - low
decreasing_by
  · simp_wf; omega
  · simp_wf; omega

/-- The ascent loop of `Iprf::trace_ball_inverse` (lines 209–232); returns
the final `(ball_start, ball_count)`. -/
noncomputable def Iprf.ascend (ip : Iprf) (n : ℕ) (low high ballCount ballStart y : ℕ) : ℕ × ℕ :=
  if low < high then
    let mid := (low + high) / 2
    let left_count := ip.leftCount n low high ballCount
    if y ≤ mid then
      ip.ascend n low mid left_count ballStart y
    else
      ip.ascend n (mid + 1) high (ballCount - left_count) (ballStart + left_count) y
  else (ballStart, ballCount)
termination_by high - low
decreasing_by
  · simp_wf; omega
  · simp_wf; omega

/-- `Iprf::trace_ball` (lines 158–195). -/
noncomputable def Iprf.traceBall (ip : Iprf) (xPrime n m : ℕ) : ℕ :=
  if m = 1 then 0 else ip.descend n 0 (m - 1) n xPrime

/-- `Iprf::trace_ball_inverse` (lines 199–235): the contiguous run
`[ball_start, ball_start + ball_count)` as a list. -/
noncomputable def Iprf.traceBallInverse (ip : Iprf) (y n m : ℕ) : List ℕ :=
  if m = 1 then List.range n
  else
    let sc := ip.ascend n 0 (m - 1) n 0 y
    List.range' sc.1 sc.2

/-- `Iprf::forward` (lines 135–142). -/
noncomputable def Iprf.forward (ip : Iprf) (x : ℕ) : ℕ :=
  if ip.domain ≤ x then 0
  else
    let permuted := ip.prp.forward x
    ip.traceBall permuted ip.domain ip.range

/-- `Iprf::inverse` (lines 145–155). -/
noncomputable def Iprf.inverse (ip : Iprf) (y : ℕ) : List ℕ :=
  if ip.range ≤ y then []
  else (ip.traceBallInverse y ip.domain ip.range).map ip.prp.inverse

/-! ## Auxiliary definitions for the stated properties -/

/-- Mathematical ceiling division `⌈a / b⌉`, the closed form the spec claims
for the leveled bounds. -/
def ceilDiv (a b : ℕ) : ℕ := (a + b - 1) / b

/-- The bound `sample` passes to the leveled `inverse_cdf_ct`
(`binomial_leveled.rs` lines 72–76). -/
def LeveledBinomialSamplerTee.selectedBound
    (s : LeveledBinomialSamplerTee) (level : ℕ) : ℕ :=
  if level < s.numLevels then s.levelBounds level else s.levelBounds (s.numLevels - 1)

/-- Loop trip count of `BinomialSamplerTee::inverse_cdf_ct`: the length of
the iteration list `scanIters max_count` its `foldl` runs over, as a function
of the full argument tuple. -/
def BinomialSamplerTee.inverseCdfCtTripCount
    (s : BinomialSamplerTee) (_n : ℕ) (_p _u : ℝ) : ℕ :=
  (scanIters s.maxCount).length

/-- Loop trip count of `LeveledBinomialSamplerTee::inverse_cdf_ct`. -/
def LeveledBinomialSamplerTee.inverseCdfCtTripCount
    (_s : LeveledBinomialSamplerTee) (_n maxN : ℕ) (_p _u : ℝ) : ℕ :=
  (scanIters maxN).length

/-- Loop trip count of
`PrecomputedBinomialSamplerTee::inverse_cdf_precomputed_ct`. -/
def PrecomputedBinomialSamplerTee.inverseCdfPrecomputedCtTripCount
    (_s : PrecomputedBinomialSamplerTee) (_n : ℕ) (_u : ℝ) : ℕ :=
  (scanIters PRECOMPUTE_MAX_N).length

/-- Loop trip count of
`PrecomputedBinomialSamplerTee::inverse_cdf_fallback_ct`. -/
def PrecomputedBinomialSamplerTee.inverseCdfFallbackCtTripCount
    (s : PrecomputedBinomialSamplerTee) (_n : ℕ) (_p _u : ℝ) : ℕ :=
  (scanIters s.fallbackMaxCount).length

/-! # Theorems -/

/-! ## Mask arithmetic helpers -/

theorem ct_le_u64_le_one (a b : ℕ) : ct_le_u64 a b ≤ 1 := by
  unfold ct_le_u64; split <;> simp

theorem ct_f64_le_le_one (a b : ℝ) : ct_f64_le a b ≤ 1 := by
  unfold ct_f64_le; split <;> simp

theorem ct_f64_lt_le_one (a b : ℝ) : ct_f64_lt a b ≤ 1 := by
  unfold ct_f64_lt; split <;> simp

theorem mask_land (a b : ℕ) (ha : a ≤ 1) (hb : b ≤ 1) : a &&& b = min a b := by
  interval_cases a <;> interval_cases b <;> decide

theorem mask_lor (a b : ℕ) (ha : a ≤ 1) (hb : b ≤ 1) : a ||| b = max a b := by
  interval_cases a <;> interval_cases b <;> decide

/-! ## C10: leveled bounds closed form -/

theorem ceilDiv_le_iff {a b c : ℕ} (hb : 0 < b) : ceilDiv a b ≤ c ↔ a ≤ b * c := by
  unfold ceilDiv
  rw [Nat.div_le_iff_le_mul_add_pred hb]
  omega

theorem iterHalf_le_iff (L n c : ℕ) : iterHalf L n ≤ c ↔ n ≤ 2 ^ L * c := by
  induction L generalizing c with
  | zero => simp [iterHalf]
  | succ L ih =>
    have hs : iterHalf (L + 1) n = (iterHalf L n + 1) / 2 := by
      unfold iterHalf
      rw [Function.iterate_succ_apply']
    rw [hs]
    have h2 : (iterHalf L n + 1) / 2 ≤ c ↔ iterHalf L n ≤ 2 * c := by omega
    rw [h2, ih]
    rw [pow_succ]
    ring_nf

theorem iterHalf_eq_ceilDiv (L n : ℕ) : iterHalf L n = ceilDiv n (2 ^ L) := by
  have hb : 0 < 2 ^ L := Nat.pos_pow_of_pos L (by norm_num)
  refine le_antisymm ?_ ?_
  · rw [iterHalf_le_iff]
    exact (ceilDiv_le_iff hb).mp le_rfl
  · rw [ceilDiv_le_iff hb]
    exact (iterHalf_le_iff L n _).mp le_rfl

theorem clog_two_256 : Nat.clog 2 256 = 8 := by
  rw [show (256 : ℕ) = 2 ^ 8 from by norm_num]
  exact Nat.clog_pow 2 8 (by norm_num)

/-- C10: for every `n ≥ 0`, `m ≥ 2` and level `L < min(ceil(log2 m), 32)`,
`LeveledBinomialSamplerTee::new(n, m)` computes
`level_bounds[L] = ⌈n / 2^L⌉` (the iterated ceiling-halving `(x+1)/2` equals
the closed form); in particular for `n = 49152, m = 256`:
`level_bound(0) = 49152`, `level_bound(1) = 24576`, `level_bound(7) > 0`. -/
theorem C10_level_bounds_closed_form (n m L : ℕ) (hm : 2 ≤ m)
    (hL : L < min (Nat.clog 2 m) MAX_TREE_DEPTH) :
    (LeveledBinomialSamplerTee.new n m).levelBound L = ceilDiv n (2 ^ L) ∧
    (LeveledBinomialSamplerTee.new 49152 256).levelBound 0 = 49152 ∧
    (LeveledBinomialSamplerTee.new 49152 256).levelBound 1 = 24576 ∧
    0 < (LeveledBinomialSamplerTee.new 49152 256).levelBound 7 := by
  have hkey : ∀ n' m' L', 2 ≤ m' → L' < min (Nat.clog 2 m') MAX_TREE_DEPTH →
      (LeveledBinomialSamplerTee.new n' m').levelBound L' = ceilDiv n' (2 ^ L') := by
    intro n' m' L' hm' hL'
    have hm1 : ¬ m' ≤ 1 := by omega
    simp only [LeveledBinomialSamplerTee.new, LeveledBinomialSamplerTee.levelBound, hm1,
      if_false]
    rw [if_pos hL', if_pos hL', iterHalf_eq_ceilDiv]
  refine ⟨hkey n m L hm hL, ?_, ?_, ?_⟩
  · rw [hkey 49152 256 0 (by norm_num) (by rw [clog_two_256]; decide)]
    decide
  · rw [hkey 49152 256 1 (by norm_num) (by rw [clog_two_256]; decide)]
    decide
  · rw [hkey 49152 256 7 (by norm_num) (by rw [clog_two_256]; decide)]
    decide

theorem C10_level_bounds_closed_form_witness :
    (LeveledBinomialSamplerTee.new 49152 256).levelBound 1 = ceilDiv 49152 (2 ^ 1) :=
  (C10_level_bounds_closed_form 49152 256 1 (by norm_num)
    (by rw [clog_two_256]; decide)).1

/-! ## C5: constant-time loop trip counts -/

/-- C5: each constant-time inverse-CDF loop iterates a number of times that
is a function of public construction parameters only — `max_count + 1` for
the baseline, `level_bounds[level] + 1` for the leveled (through the public
bound `sample` selects), `PRECOMPUTE_MAX_N + 1` for the precomputed table
scan and `fallback_max_count + 1` for its fallback — and in particular the
trip count is identical for any two values of the secret count and any two
values of `prf_output` (and of the uniform / probability derived from them). -/
theorem C5_trip_counts_public (base : BinomialSamplerTee)
    (lev : LeveledBinomialSamplerTee) (prec : PrecomputedBinomialSamplerTee)
    (level n₁ n₂ : ℕ) (p₁ p₂ u₁ u₂ : ℝ) (hlev : level < lev.numLevels) :
    base.inverseCdfCtTripCount n₁ p₁ u₁ = base.maxCount + 1 ∧
    base.inverseCdfCtTripCount n₁ p₁ u₁ = base.inverseCdfCtTripCount n₂ p₂ u₂ ∧
    lev.inverseCdfCtTripCount n₁ (lev.selectedBound level) p₁ u₁ =
      lev.levelBounds level + 1 ∧
    lev.inverseCdfCtTripCount n₁ (lev.selectedBound level) p₁ u₁ =
      lev.inverseCdfCtTripCount n₂ (lev.selectedBound level) p₂ u₂ ∧
    prec.inverseCdfPrecomputedCtTripCount n₁ u₁ = PRECOMPUTE_MAX_N + 1 ∧
    prec.inverseCdfPrecomputedCtTripCount n₁ u₁ =
      prec.inverseCdfPrecomputedCtTripCount n₂ u₂ ∧
    prec.inverseCdfFallbackCtTripCount n₁ p₁ u₁ = prec.fallbackMaxCount + 1 ∧
    prec.inverseCdfFallbackCtTripCount n₁ p₁ u₁ =
      prec.inverseCdfFallbackCtTripCount n₂ p₂ u₂ := by
  refine ⟨?_, rfl, ?_, rfl, ?_, rfl, ?_, rfl⟩ <;>
    simp [BinomialSamplerTee.inverseCdfCtTripCount,
      LeveledBinomialSamplerTee.inverseCdfCtTripCount,
      LeveledBinomialSamplerTee.selectedBound,
      PrecomputedBinomialSamplerTee.inverseCdfPrecomputedCtTripCount,
      PrecomputedBinomialSamplerTee.inverseCdfFallbackCtTripCount,
      scanIters, hlev]

theorem C5_trip_counts_public_witness :
    (BinomialSamplerTee.new 9).inverseCdfCtTripCount 4 (1/2 : ℝ) (1/3 : ℝ) = 9 + 1 :=
  (C5_trip_counts_public (BinomialSamplerTee.new 9)
    (LeveledBinomialSamplerTee.new 10 4) (PrecomputedBinomialSamplerTee.new 7)
    0 4 5 (1/2) (1/4) (1/3) (2/3)
    (by rw [show (LeveledBinomialSamplerTee.new 10 4).numLevels =
        min (Nat.clog 2 4) MAX_TREE_DEPTH from rfl,
      show (4 : ℕ) = 2 ^ 2 from by norm_num, Nat.clog_pow 2 2 (by norm_num)]; decide)).1

/-! ## C9: public edge cases of the samplers -/

/-- C9: for every sampler, if `denom == 0` or `num == 0` then `sample`
returns `0`, and otherwise if `num ≥ denom` it returns `count`. -/
theorem C9_sampler_edge_cases (base : BinomialSamplerTee)
    (lev : LeveledBinomialSamplerTee) (gauss : GaussianBinomialSamplerTee)
    (prec : PrecomputedBinomialSamplerTee) (level count num denom prf : ℕ) :
    ((denom = 0 ∨ num = 0) →
      base.sample count num denom prf = 0 ∧
      lev.sample level count num denom prf = 0 ∧
      gauss.sample count num denom prf = 0 ∧
      prec.sample count num denom prf = 0) ∧
    (¬(denom = 0 ∨ num = 0) → denom ≤ num →
      base.sample count num denom prf = count ∧
      lev.sample level count num denom prf = count ∧
      gauss.sample count num denom prf = count ∧
      prec.sample count num denom prf = count) := by
  constructor
  · intro h
    refine ⟨?_, ?_, ?_, ?_⟩ <;>
      simp [BinomialSamplerTee.sample, LeveledBinomialSamplerTee.sample,
        GaussianBinomialSamplerTee.sample, PrecomputedBinomialSamplerTee.sample, h]
  · intro h h2
    refine ⟨?_, ?_, ?_, ?_⟩ <;>
      simp [BinomialSamplerTee.sample, LeveledBinomialSamplerTee.sample,
        GaussianBinomialSamplerTee.sample, PrecomputedBinomialSamplerTee.sample, h, h2]

theorem C9_sampler_edge_cases_witness :
    (BinomialSamplerTee.new 5).sample 3 1 0 7 = 0 ∧
    (BinomialSamplerTee.new 5).sample 3 4 2 7 = 3 :=
  ⟨((C9_sampler_edge_cases (BinomialSamplerTee.new 5)
      (LeveledBinomialSamplerTee.new 10 4) (GaussianBinomialSamplerTee.new 6)
      (PrecomputedBinomialSamplerTee.new 6) 0 3 1 0 7).1 (Or.inl rfl)).1,
   ((C9_sampler_edge_cases (BinomialSamplerTee.new 5)
      (LeveledBinomialSamplerTee.new 10 4) (GaussianBinomialSamplerTee.new 6)
      (PrecomputedBinomialSamplerTee.new 6) 0 3 4 2 7).2 (by simp) (by norm_num)).1⟩

/-! ## C2: Swap-or-Not PRP is a permutation with exact inverse -/

theorem partner_invol (N k x : ℕ) (hN : 0 < N) (hk : k < N) (hx : x < N) :
    (k + N - (k + N - x) % N) % N = x := by
  rcases le_or_lt x k with hcase | hcase
  · have h1 : (k + N - x) % N = k - x := by
      rw [show k + N - x = N + (k - x) from by omega, Nat.add_mod_left]
      exact Nat.mod_eq_of_lt (by omega)
    rw [h1, show k + N - (k - x) = N + x from by omega, Nat.add_mod_left]
    exact Nat.mod_eq_of_lt hx
  · have h1 : (k + N - x) % N = k + N - x := Nat.mod_eq_of_lt (by omega)
    rw [h1, show k + N - (k + N - x) = x from by omega]
    exact Nat.mod_eq_of_lt hx

theorem SwapOrNot.round_lt (prp : SwapOrNot) (hN : 0 < prp.domain) (i x : ℕ)
    (hx : x < prp.domain) : prp.round i x < prp.domain := by
  simp only [SwapOrNot.round]
  split
  · exact Nat.mod_lt _ hN
  · exact hx

theorem SwapOrNot.round_round (prp : SwapOrNot) (hN : 0 < prp.domain) (i x : ℕ)
    (hx : x < prp.domain) : prp.round i (prp.round i x) = x := by
  have hk : prp.deriveRoundKey i < prp.domain := Nat.mod_lt _ hN
  have hxm : x % prp.domain = x := Nat.mod_eq_of_lt hx
  simp only [SwapOrNot.round]
  set N := prp.domain with hNdef
  set k := prp.deriveRoundKey i with hkdef
  set P := (k + N - x % N) % N with hP
  have hPlt : P < N := Nat.mod_lt _ hN
  have hPmod : P % N = P := Nat.mod_eq_of_lt hPlt
  have hback : (k + N - P % N) % N = x := by
    rw [hPmod, hP, hxm]
    exact partner_invol N k x hN hk hx
  by_cases hbit : prp.prfBit i (max x P)
  · rw [if_pos hbit, hback, max_comm P x, if_pos hbit]
  · simp only [if_neg hbit]

theorem SwapOrNot.foldl_rounds_lt (prp : SwapOrNot) (hN : 0 < prp.domain) :
    ∀ (R x : ℕ), x < prp.domain →
      (List.range R).foldl (fun v r => prp.round r v) x < prp.domain := by
  intro R
  induction R with
  | zero =>
    intro x hx
    simpa using hx
  | succ R ih =>
    intro x hx
    rw [List.range_succ, List.foldl_append]
    simp only [List.foldl_cons, List.foldl_nil]
    exact prp.round_lt hN _ _ (ih x hx)

theorem SwapOrNot.foldr_rounds_lt (prp : SwapOrNot) (hN : 0 < prp.domain) :
    ∀ (R y : ℕ), y < prp.domain →
      (List.range R).foldr (fun r v => prp.round r v) y < prp.domain := by
  intro R
  induction R with
  | zero =>
    intro y hy
    simpa using hy
  | succ R ih =>
    intro y hy
    rw [List.range_succ, List.foldr_append]
    simp only [List.foldr_cons, List.foldr_nil]
    exact ih _ (prp.round_lt hN _ _ hy)

theorem SwapOrNot.foldr_foldl_cancel (prp : SwapOrNot) (hN : 0 < prp.domain) :
    ∀ (R x : ℕ), x < prp.domain →
      (List.range R).foldr (fun r v => prp.round r v)
        ((List.range R).foldl (fun v r => prp.round r v) x) = x := by
  intro R
  induction R with
  | zero =>
    intro x _
    simp
  | succ R ih =>
    intro x hx
    rw [List.range_succ, List.foldl_append, List.foldr_append]
    simp only [List.foldl_cons, List.foldl_nil, List.foldr_cons, List.foldr_nil]
    rw [prp.round_round hN _ _ (prp.foldl_rounds_lt hN R x hx)]
    exact ih x hx

theorem SwapOrNot.foldl_foldr_cancel (prp : SwapOrNot) (hN : 0 < prp.domain) :
    ∀ (R y : ℕ), y < prp.domain →
      (List.range R).foldl (fun v r => prp.round r v)
        ((List.range R).foldr (fun r v => prp.round r v) y) = y := by
  intro R
  induction R with
  | zero =>
    intro y _
    simp
  | succ R ih =>
    intro y hy
    rw [List.range_succ, List.foldl_append, List.foldr_append]
    simp only [List.foldl_cons, List.foldl_nil, List.foldr_cons, List.foldr_nil]
    rw [ih _ (prp.round_lt hN _ _ hy)]
    exact prp.round_round hN _ _ hy

theorem SwapOrNot.inverse_forward (prp : SwapOrNot) (hN : 0 < prp.domain)
    (x : ℕ) (hx : x < prp.domain) : prp.inverse (prp.forward x) = x :=
  prp.foldr_foldl_cancel hN prp.numRounds x hx

theorem SwapOrNot.forward_inverse (prp : SwapOrNot) (hN : 0 < prp.domain)
    (y : ℕ) (hy : y < prp.domain) : prp.forward (prp.inverse y) = y :=
  prp.foldl_foldr_cancel hN prp.numRounds y hy

theorem SwapOrNot.forward_lt (prp : SwapOrNot) (hN : 0 < prp.domain)
    (x : ℕ) (hx : x < prp.domain) : prp.forward x < prp.domain :=
  prp.foldl_rounds_lt hN prp.numRounds x hx

theorem SwapOrNot.inverse_lt (prp : SwapOrNot) (hN : 0 < prp.domain)
    (y : ℕ) (hy : y < prp.domain) : prp.inverse y < prp.domain :=
  prp.foldr_rounds_lt hN prp.numRounds y hy

/-- C2: for every domain size `N ≥ 1` and every key (modelled as the two
cipher-derived functions), `SwapOrNot::forward` restricted to `[0, N)` is a
permutation of `{0, …, N-1}`, `SwapOrNot::inverse` is its exact functional
inverse on `[0, N)`, and each round is an involution on `[0, N)`. -/
theorem C2_swap_or_not_permutation (encRK : ℕ → ℕ) (prfBit : ℕ → ℕ → Bool)
    (N : ℕ) (hN : 0 < N) :
    Set.BijOn (SwapOrNot.new encRK prfBit N).forward (Set.Iio N) (Set.Iio N) ∧
    (∀ x < N, (SwapOrNot.new encRK prfBit N).inverse
      ((SwapOrNot.new encRK prfBit N).forward x) = x) ∧
    (∀ i, ∀ x < N, (SwapOrNot.new encRK prfBit N).round i
      ((SwapOrNot.new encRK prfBit N).round i x) = x) := by
  set prp := SwapOrNot.new encRK prfBit N with hprp
  have hdom : prp.domain = N := rfl
  have hN' : 0 < prp.domain := by rw [hdom]; exact hN
  refine ⟨⟨?_, ?_, ?_⟩, ?_, ?_⟩
  · intro x hx
    exact prp.forward_lt hN' x hx
  · intro x hx y hy hxy
    have h1 := prp.inverse_forward hN' x hx
    have h2 := prp.inverse_forward hN' y hy
    rw [← h1, ← h2, hxy]
  · intro y hy
    exact ⟨prp.inverse y, prp.inverse_lt hN' y hy, prp.forward_inverse hN' y hy⟩
  · intro x hx
    exact prp.inverse_forward hN' x hx
  · intro i x hx
    exact prp.round_round hN' i x hx

theorem C2_swap_or_not_permutation_witness :
    Set.BijOn (SwapOrNot.new (fun _ => 0) (fun _ _ => false) 3).forward
      (Set.Iio 3) (Set.Iio 3) :=
  (C2_swap_or_not_permutation (fun _ => 0) (fun _ _ => false) 3 (by norm_num)).1

/-! ## PMNS helper lemmas (`state-syncer/src/iprf.rs`) -/

theorem roundToNat_le (x : ℝ) (n : ℕ) (h : x ≤ n) : (round x).toNat ≤ n := by
  rw [Int.toNat_le, round_eq]
  have h2 : (⌊(n : ℝ) + 1/2⌋ : ℤ) = n := by
    rw [Int.floor_eq_iff]
    constructor
    · push_cast; linarith
    · push_cast; linarith
  rw [← h2]
  exact Int.floor_le_floor (by linarith)

theorem bicLoop_le (n : ℕ) (p q u : ℝ) : ∀ d k prob cum, n - k ≤ d →
    bicLoop n p q u k prob cum ≤ n := by
  intro d
  induction d with
  | zero =>
    intro k prob cum hk
    rw [bicLoop, dif_neg (by omega)]
  | succ d ih =>
    intro k prob cum hk
    rw [bicLoop]
    split
    · dsimp only
      split
      · omega
      · exact ih (k + 1) _ _ (by omega)
    · exact le_rfl

theorem normalApproxBinomial_le (n : ℕ) (p u : ℝ) : normalApproxBinomial n p u ≤ n := by
  unfold normalApproxBinomial
  dsimp only
  split
  · exact Nat.zero_le n
  · split
    · exact le_rfl
    · next h1 h2 => exact roundToNat_le _ n (by linarith [not_lt.mp h2])

theorem binomialInverseCdf_le (n : ℕ) (p u : ℝ) : binomialInverseCdf n p u ≤ n := by
  unfold binomialInverseCdf
  split
  · exact Nat.zero_le n
  · split
    · exact le_rfl
    · split
      · exact Nat.zero_le n
      · split
        · exact le_rfl
        · split
          · exact Nat.zero_le n
          · split
            · exact normalApproxBinomial_le n p u
            · dsimp only
              split
              · exact Nat.zero_le n
              · exact bicLoop_le n p (1 - p) u n 0 _ _ (by omega)

theorem Iprf.leftCount_le (ip : Iprf) (n low high c : ℕ) :
    ip.leftCount n low high c ≤ c :=
  binomialInverseCdf_le c _ _

theorem Iprf.descend_of_lt (ip : Iprf) (n low high count idx : ℕ) (h : low < high) :
    ip.descend n low high count idx =
      if idx < ip.leftCount n low high count then
        ip.descend n low ((low + high) / 2) (ip.leftCount n low high count) idx
      else
        ip.descend n ((low + high) / 2 + 1) high (count - ip.leftCount n low high count)
          (idx - ip.leftCount n low high count) := by
  rw [Iprf.descend]
  simp only [if_pos h]

theorem Iprf.descend_of_ge (ip : Iprf) (n low high count idx : ℕ) (h : ¬ low < high) :
    ip.descend n low high count idx = low := by
  rw [Iprf.descend]
  simp only [if_neg h]

theorem Iprf.ascend_of_lt (ip : Iprf) (n low high count start y : ℕ) (h : low < high) :
    ip.ascend n low high count start y =
      if y ≤ (low + high) / 2 then
        ip.ascend n low ((low + high) / 2) (ip.leftCount n low high count) start y
      else
        ip.ascend n ((low + high) / 2 + 1) high (count - ip.leftCount n low high count)
          (start + ip.leftCount n low high count) y := by
  rw [Iprf.ascend]
  simp only [if_pos h]

theorem Iprf.ascend_of_ge (ip : Iprf) (n low high count start y : ℕ) (h : ¬ low < high) :
    ip.ascend n low high count start y = (start, count) := by
  rw [Iprf.ascend]
  simp only [if_neg h]

theorem Iprf.descend_bounds (ip : Iprf) (n : ℕ) :
    ∀ d low high count idx, high - low ≤ d → low ≤ high →
      low ≤ ip.descend n low high count idx ∧ ip.descend n low high count idx ≤ high := by
  intro d
  induction d with
  | zero =>
    intro low high count idx hd hlh
    rw [ip.descend_of_ge n low high count idx (by omega)]
    omega
  | succ d ih =>
    intro low high count idx hd hlh
    by_cases h : low < high
    · rw [ip.descend_of_lt n low high count idx h]
      have hmid1 : low ≤ (low + high) / 2 := by omega
      have hmid2 : (low + high) / 2 < high := by omega
      split
      · have := ih low ((low + high) / 2) (ip.leftCount n low high count) idx
          (by omega) hmid1
        omega
      · have := ih ((low + high) / 2 + 1) high (count - ip.leftCount n low high count)
          (idx - ip.leftCount n low high count) (by omega) (by omega)
        omega
    · rw [ip.descend_of_ge n low high count idx h]
      omega

theorem Iprf.descend_mem_ascend (ip : Iprf) (n : ℕ) :
    ∀ d low high count start idx, high - low ≤ d → low ≤ high → idx < count →
      (ip.ascend n low high count start (ip.descend n low high count idx)).1 ≤ start + idx ∧
      start + idx < (ip.ascend n low high count start (ip.descend n low high count idx)).1 +
        (ip.ascend n low high count start (ip.descend n low high count idx)).2 := by
  intro d
  induction d with
  | zero =>
    intro low high count start idx hd hlh hidx
    rw [ip.descend_of_ge n low high count idx (by omega),
      ip.ascend_of_ge n low high count start low (by omega)]
    simp only
    omega
  | succ d ih =>
    intro low high count start idx hd hlh hidx
    by_cases h : low < high
    · have hlc := ip.leftCount_le n low high count
      have hmid1 : low ≤ (low + high) / 2 := by omega
      have hmid2 : (low + high) / 2 < high := by omega
      rw [ip.descend_of_lt n low high count idx h]
      by_cases hleft : idx < ip.leftCount n low high count
      · rw [if_pos hleft]
        have hyb := ip.descend_bounds n d low ((low + high) / 2)
          (ip.leftCount n low high count) idx (by omega) hmid1
        rw [ip.ascend_of_lt n low high count start _ h, if_pos (by omega)]
        exact ih low ((low + high) / 2) (ip.leftCount n low high count) start idx
          (by omega) hmid1 hleft
      · rw [if_neg hleft]
        have hyb := ip.descend_bounds n d ((low + high) / 2 + 1) high
          (count - ip.leftCount n low high count)
          (idx - ip.leftCount n low high count) (by omega) (by omega)
        rw [ip.ascend_of_lt n low high count start _ h, if_neg (by omega)]
        have := ih ((low + high) / 2 + 1) high (count - ip.leftCount n low high count)
          (start + ip.leftCount n low high count) (idx - ip.leftCount n low high count)
          (by omega) (by omega) (by omega)
        omega
    · rw [ip.descend_of_ge n low high count idx h,
        ip.ascend_of_ge n low high count start low h]
      simp only
      omega

theorem Iprf.ascend_sum (ip : Iprf) (n : ℕ) :
    ∀ d low high count start, high - low ≤ d → low ≤ high →
      ∑ y ∈ Finset.Icc low high, (ip.ascend n low high count start y).2 = count := by
  intro d
  induction d with
  | zero =>
    intro low high count start hd hlh
    have hlow : low = high := by omega
    subst hlow
    rw [Finset.Icc_self, Finset.sum_singleton,
      ip.ascend_of_ge n low low count start low (by omega)]
  | succ d ih =>
    intro low high count start hd hlh
    by_cases h : low < high
    · have hlc := ip.leftCount_le n low high count
      set mid := (low + high) / 2 with hmid
      have hmid1 : low ≤ mid := by omega
      have hmid2 : mid < high := by omega
      have hsplit : Finset.Icc low high = Finset.Icc low mid ∪ Finset.Icc (mid + 1) high := by
        ext z
        simp only [Finset.mem_Icc, Finset.mem_union]
        omega
      have hdisj : Disjoint (Finset.Icc low mid) (Finset.Icc (mid + 1) high) := by
        rw [Finset.disjoint_left]
        intro z hz hz2
        simp only [Finset.mem_Icc] at hz hz2
        omega
      rw [hsplit, Finset.sum_union hdisj]
      have hleftsum : ∑ y ∈ Finset.Icc low mid, (ip.ascend n low high count start y).2 =
          ip.leftCount n low high count := by
        have hcong : ∀ y ∈ Finset.Icc low mid, (ip.ascend n low high count start y).2 =
            (ip.ascend n low mid (ip.leftCount n low high count) start y).2 := by
          intro y hy
          simp only [Finset.mem_Icc] at hy
          rw [ip.ascend_of_lt n low high count start y h, if_pos (by omega)]
        rw [Finset.sum_congr rfl hcong]
        exact ih low mid (ip.leftCount n low high count) start (by omega) hmid1
      have hrightsum : ∑ y ∈ Finset.Icc (mid + 1) high, (ip.ascend n low high count start y).2 =
          count - ip.leftCount n low high count := by
        have hcong : ∀ y ∈ Finset.Icc (mid + 1) high, (ip.ascend n low high count start y).2 =
            (ip.ascend n (mid + 1) high (count - ip.leftCount n low high count)
              (start + ip.leftCount n low high count) y).2 := by
          intro y hy
          simp only [Finset.mem_Icc] at hy
          rw [ip.ascend_of_lt n low high count start y h, if_neg (by omega)]
        rw [Finset.sum_congr rfl hcong]
        exact ih (mid + 1) high (count - ip.leftCount n low high count)
          (start + ip.leftCount n low high count) (by omega) (by omega)
      rw [hleftsum, hrightsum]
      omega
    · have hlow : low = high := by omega
      subst hlow
      rw [Finset.Icc_self, Finset.sum_singleton,
        ip.ascend_of_ge n low low count start low (by omega)]

/-! ## C1: iPRF roundtrip -/

/-- C1: for every key (modelled by the abstract keyed primitives), every
`n ≥ m ≥ 1` and every `x ∈ [0, n)`, the list returned by
`Iprf::inverse(Iprf::forward(x))` contains `x`: the ball `x' = PRP(x)` lies
in the contiguous preimage run computed by the PMNS inverse ascent for the
bin that the PMNS forward descent assigns it to. -/
theorem C1_iprf_roundtrip (prfE : ℕ → ℕ) (encN : ℕ → ℕ → ℕ → ℕ) (rk : ℕ → ℕ)
    (pb : ℕ → ℕ → Bool) (n m x : ℕ) (hm : 1 ≤ m) (hmn : m ≤ n) (hx : x < n) :
    x ∈ (Iprf.new prfE encN rk pb n m).inverse ((Iprf.new prfE encN rk pb n m).forward x) := by
  set ip := Iprf.new prfE encN rk pb n m with hip
  have hN : 0 < n := by omega
  have hdom : ip.domain = n := rfl
  have hrange : ip.range = m := rfl
  have hprpdom : ip.prp.domain = n := rfl
  have hNp : 0 < ip.prp.domain := by rw [hprpdom]; exact hN
  have hfwd : ip.forward x = ip.traceBall (ip.prp.forward x) n m := by
    rw [Iprf.forward, if_neg (by rw [hdom]; omega)]
    rfl
  set xp := ip.prp.forward x with hxp
  have hxp_lt : xp < n := by
    have := ip.prp.forward_lt hNp x (by rw [hprpdom]; exact hx)
    rwa [hprpdom] at this
  have hinv_xp : ip.prp.inverse xp = x :=
    ip.prp.inverse_forward hNp x (by rw [hprpdom]; exact hx)
  by_cases hm1 : m = 1
  · subst hm1
    have hy : ip.traceBall xp n 1 = 0 := by rw [Iprf.traceBall, if_pos rfl]
    rw [hfwd, hy, Iprf.inverse, if_neg (by rw [hrange]; omega)]
    rw [Iprf.traceBallInverse, if_pos hrange, hdom]
    exact List.mem_map.mpr ⟨xp, List.mem_range.mpr hxp_lt, hinv_xp⟩
  · set y := ip.descend n 0 (m - 1) n xp with hy
    have hyb := ip.descend_bounds n (m - 1) 0 (m - 1) n xp (by omega) (by omega)
    have hylt : y < m := by omega
    have htb : ip.traceBall xp n m = y := by rw [Iprf.traceBall, if_neg hm1]
    have hmem := ip.descend_mem_ascend n (m - 1) 0 (m - 1) n 0 xp (by omega) (by omega) hxp_lt
    rw [hfwd, htb, Iprf.inverse, if_neg (by rw [hrange]; omega)]
    rw [Iprf.traceBallInverse,
      if_neg (show ¬ip.range = 1 from by rw [hrange]; exact hm1), hdom, hrange]
    dsimp only
    refine List.mem_map.mpr ⟨xp, ?_, hinv_xp⟩
    rw [List.mem_range'_1]
    rw [← hy] at hmem
    omega

theorem C1_iprf_roundtrip_witness :
    1 ∈ (Iprf.new (fun _ => 0) (fun _ _ _ => 0) (fun _ => 0) (fun _ _ => false) 2 1).inverse
      ((Iprf.new (fun _ => 0) (fun _ _ _ => 0) (fun _ => 0) (fun _ _ => false) 2 1).forward 1) :=
  C1_iprf_roundtrip (fun _ => 0) (fun _ _ _ => 0) (fun _ => 0) (fun _ _ => false) 2 1 1
    (by norm_num) (by norm_num) (by norm_num)

/-! ## C3: preimage count conservation -/

/-- C3: for every key and every `n`, `m ≥ 1`: at every PMNS node with ball
count `c` the left-child count produced by the binomial inverse CDF is at
most `c` (so the right-child count `c - left` restores `c` exactly), and the
lengths of the preimage lists `Iprf::inverse(y)` over all `y ∈ [0, m)` sum
to exactly `n`. -/
theorem C3_preimage_count_conservation (prfE : ℕ → ℕ) (encN : ℕ → ℕ → ℕ → ℕ)
    (rk : ℕ → ℕ) (pb : ℕ → ℕ → Bool) (n m : ℕ) (hm : 1 ≤ m) :
    (∀ low high c, (Iprf.new prfE encN rk pb n m).leftCount n low high c ≤ c ∧
      (Iprf.new prfE encN rk pb n m).leftCount n low high c +
        (c - (Iprf.new prfE encN rk pb n m).leftCount n low high c) = c) ∧
    ∑ y ∈ Finset.range m, ((Iprf.new prfE encN rk pb n m).inverse y).length = n := by
  set ip := Iprf.new prfE encN rk pb n m with hip
  have hdom : ip.domain = n := rfl
  have hrange : ip.range = m := rfl
  constructor
  · intro low high c
    have := ip.leftCount_le n low high c
    omega
  · by_cases hm1 : m = 1
    · subst hm1
      rw [Finset.sum_range_one, Iprf.inverse, if_neg (by rw [hrange]; omega)]
      rw [Iprf.traceBallInverse, if_pos hrange, hdom]
      simp
    · have hcong : ∀ y ∈ Finset.range m,
          (ip.inverse y).length = (ip.ascend n 0 (m - 1) n 0 y).2 := by
        intro y hy
        rw [Finset.mem_range] at hy
        rw [Iprf.inverse, if_neg (by rw [hrange]; omega)]
        rw [Iprf.traceBallInverse,
          if_neg (show ¬ip.range = 1 from by rw [hrange]; exact hm1), hdom, hrange]
        dsimp only
        rw [List.length_map, List.length_range']
      rw [Finset.sum_congr rfl hcong]
      have hIcc : Finset.range m = Finset.Icc 0 (m - 1) := by
        ext z
        simp only [Finset.mem_Icc, Finset.mem_range]
        omega
      rw [hIcc]
      exact ip.ascend_sum n (m - 1) 0 (m - 1) n 0 (by omega) (by omega)

theorem C3_preimage_count_conservation_witness :
    ∑ y ∈ Finset.range 2,
      ((Iprf.new (fun _ => 0) (fun _ _ _ => 0) (fun _ => 0) (fun _ _ => false) 3 2).inverse
        y).length = 3 :=
  (C3_preimage_count_conservation (fun _ => 0) (fun _ _ _ => 0) (fun _ => 0)
    (fun _ _ => false) 3 2 (by norm_num)).2

/-! ## C4: sampler range -/

theorem ct_le_u64_eq_one_iff (a b : ℕ) : ct_le_u64 a b = 1 ↔ a ≤ b := by
  unfold ct_le_u64
  split <;> simp_all

theorem foldl_preserves {α β : Type} (P : β → Prop) (f : β → α → β) :
    ∀ (l : List α) (s : β), P s → (∀ s a, P s → P (f s a)) → P (l.foldl f s) := by
  intro l
  induction l with
  | nil =>
    intro s h _
    simpa using h
  | cons a t ih =>
    intro s h hstep
    simpa using ih (f s a) (hstep s a h) hstep

theorem latch_update_inv (n k res fnd a : ℕ) (hres : res ≤ n) (hfnd : fnd ≤ 1)
    (ha : a ≤ 1) :
    ct_select_u64 (a &&& (1 - fnd) &&& ct_le_u64 k n) k res ≤ n ∧
    (fnd ||| (a &&& (1 - fnd) &&& ct_le_u64 k n)) ≤ 1 := by
  have hkin : ct_le_u64 k n ≤ 1 := ct_le_u64_le_one k n
  have h1 : a &&& (1 - fnd) = min a (1 - fnd) := mask_land _ _ ha (by omega)
  have h2 : a &&& (1 - fnd) &&& ct_le_u64 k n = min (min a (1 - fnd)) (ct_le_u64 k n) := by
    rw [h1]
    exact mask_land _ _ (by omega) hkin
  constructor
  · unfold ct_select_u64
    split
    · next hcase =>
      rw [h2] at hcase
      have hk : ct_le_u64 k n = 1 := by omega
      exact (ct_le_u64_eq_one_iff k n).mp hk
    · exact hres
  · rw [mask_lor _ _ hfnd (by rw [h2]; omega)]
    rw [h2]
    omega

theorem ctStep_inv (n : ℕ) (lpq u : ℝ) (st : ScanState) (k : ℕ)
    (h1 : st.result ≤ n) (h2 : st.found ≤ 1) :
    (ctStep n lpq u st k).result ≤ n ∧ (ctStep n lpq u st k).found ≤ 1 := by
  unfold ctStep
  dsimp only
  exact latch_update_inv n k st.result st.found _ h1 h2 (ct_f64_le_le_one _ _)

theorem logCdfScan_le (bound n : ℕ) (p u : ℝ) : logCdfScan bound n p u ≤ n := by
  unfold logCdfScan
  dsimp only
  have hinv := foldl_preserves (fun st : ScanState => st.result ≤ n ∧ st.found ≤ 1)
    (ctStep n (Real.log p - Real.log (1 - p)) u) (scanIters bound)
    ⟨(n : ℝ) * Real.log (1 - p), 0, 0, 0⟩ ⟨by simp, by simp⟩
    (fun st k hk => ctStep_inv n _ u st k hk.1 hk.2)
  unfold ct_select_u64
  split
  · exact hinv.1
  · exact le_rfl

theorem BinomialSamplerTee.inverseCdfCt_le_base (s : BinomialSamplerTee) (n : ℕ) (p u : ℝ) :
    s.inverseCdfCt n p u ≤ n := by
  unfold BinomialSamplerTee.inverseCdfCt
  refine le_trans (logCdfScan_le _ _ _ _) ?_
  unfold ct_min_u64
  omega

theorem BinomialSamplerTee.sample_le_base (s : BinomialSamplerTee) (count num denom prf : ℕ) :
    s.sample count num denom prf ≤ count := by
  unfold BinomialSamplerTee.sample
  split
  · exact Nat.zero_le count
  · split
    · exact le_rfl
    · dsimp only
      unfold ct_select_u64
      split
      · exact Nat.zero_le count
      · split
        · exact Nat.sub_le count _
        · exact s.inverseCdfCt_le_base count _ _

theorem LeveledBinomialSamplerTee.inverseCdfCt_le_leveled (s : LeveledBinomialSamplerTee)
    (n maxN : ℕ) (p u : ℝ) : s.inverseCdfCt n maxN p u ≤ n := by
  unfold LeveledBinomialSamplerTee.inverseCdfCt
  refine le_trans (logCdfScan_le _ _ _ _) ?_
  unfold ct_min_u64
  omega

theorem LeveledBinomialSamplerTee.sample_le_leveled (s : LeveledBinomialSamplerTee)
    (level count num denom prf : ℕ) : s.sample level count num denom prf ≤ count := by
  unfold LeveledBinomialSamplerTee.sample
  split
  · exact Nat.zero_le count
  · split
    · exact le_rfl
    · dsimp only
      unfold ct_select_u64
      split
      · exact Nat.zero_le count
      · split
        · exact Nat.sub_le count _
        · exact s.inverseCdfCt_le_leveled count _ _ _

theorem GaussianBinomialSamplerTee.sampleGaussianCt_le (s : GaussianBinomialSamplerTee)
    (n : ℕ) (p u : ℝ) : s.sampleGaussianCt n p u ≤ n := by
  unfold GaussianBinomialSamplerTee.sampleGaussianCt
  dsimp only
  rw [Int.toNat_le]
  exact min_le_right _ _

theorem GaussianBinomialSamplerTee.sampleExactCt_le (s : GaussianBinomialSamplerTee)
    (n0 : ℕ) (p u : ℝ) : s.sampleExactCt n0 p u ≤ n0 := by
  unfold GaussianBinomialSamplerTee.sampleExactCt
  dsimp only
  have hmin : ct_min_u64 n0 s.fallbackMaxCount ≤ n0 := by
    unfold ct_min_u64
    omega
  by_cases hcomp : (1 : ℝ)/2 < p
  · simp only [if_pos hcomp]
    have hk := logCdfScan_le s.fallbackMaxCount (ct_min_u64 n0 s.fallbackMaxCount) (1 - p) u
    omega
  · simp only [if_neg hcomp]
    have hk := logCdfScan_le s.fallbackMaxCount (ct_min_u64 n0 s.fallbackMaxCount) p u
    omega

theorem GaussianBinomialSamplerTee.sample_le_gauss (s : GaussianBinomialSamplerTee)
    (count num denom prf : ℕ) : s.sample count num denom prf ≤ count := by
  unfold GaussianBinomialSamplerTee.sample
  split
  · exact Nat.zero_le count
  · split
    · exact le_rfl
    · dsimp only
      unfold ct_select_u64
      split
      · exact s.sampleGaussianCt_le count _ _
      · exact s.sampleExactCt_le count _ _

theorem latchStep_inv (n : ℕ) (f : ℕ → ℝ) (u : ℝ) (st : ℕ × ℕ) (k : ℕ)
    (h1 : st.1 ≤ n) (h2 : st.2 ≤ 1) :
    (latchStep n f u st k).1 ≤ n ∧ (latchStep n f u st k).2 ≤ 1 := by
  unfold latchStep
  dsimp only
  exact latch_update_inv n k st.1 st.2 _ h1 h2 (ct_f64_le_le_one _ _)

theorem PrecomputedBinomialSamplerTee.inverseCdfPrecomputedCt_le
    (s : PrecomputedBinomialSamplerTee) (n : ℕ) (u : ℝ) :
    s.inverseCdfPrecomputedCt n u ≤ n := by
  unfold PrecomputedBinomialSamplerTee.inverseCdfPrecomputedCt
  dsimp only
  have hinv := foldl_preserves (fun st : ℕ × ℕ => st.1 ≤ n ∧ st.2 ≤ 1)
    (latchStep n (CDF_TABLES (min n PRECOMPUTE_MAX_N)) u) (scanIters PRECOMPUTE_MAX_N)
    (0, 0) ⟨Nat.zero_le n, by omega⟩
    (fun st k hk => latchStep_inv n _ u st k hk.1 hk.2)
  unfold ct_select_u64
  split
  · exact hinv.1
  · exact le_rfl

theorem PrecomputedBinomialSamplerTee.inverseCdfFallbackCt_le
    (s : PrecomputedBinomialSamplerTee) (n0 : ℕ) (p u : ℝ) :
    s.inverseCdfFallbackCt n0 p u ≤ n0 := by
  unfold PrecomputedBinomialSamplerTee.inverseCdfFallbackCt
  dsimp only
  have hmin : ct_min_u64 n0 s.fallbackMaxCount ≤ n0 := by
    unfold ct_min_u64
    omega
  by_cases hcomp : (1 : ℝ)/2 < p
  · simp only [if_pos hcomp]
    have hk := logCdfScan_le s.fallbackMaxCount (ct_min_u64 n0 s.fallbackMaxCount) (1 - p) u
    omega
  · simp only [if_neg hcomp]
    have hk := logCdfScan_le s.fallbackMaxCount (ct_min_u64 n0 s.fallbackMaxCount) p u
    omega

theorem PrecomputedBinomialSamplerTee.sampleHalf_le (s : PrecomputedBinomialSamplerTee)
    (count prf : ℕ) : s.sampleHalf count prf ≤ count := by
  unfold PrecomputedBinomialSamplerTee.sampleHalf
  dsimp only
  split
  · exact s.inverseCdfPrecomputedCt_le count _
  · exact s.inverseCdfFallbackCt_le count _ _

theorem PrecomputedBinomialSamplerTee.sample_le_prec (s : PrecomputedBinomialSamplerTee)
    (count num denom prf : ℕ) : s.sample count num denom prf ≤ count := by
  unfold PrecomputedBinomialSamplerTee.sample
  split
  · exact Nat.zero_le count
  · split
    · exact le_rfl
    · split
      · exact s.sampleHalf_le count prf
      · exact s.inverseCdfFallbackCt_le count _ _

/-- C4: for every sampler (baseline, leveled, Gaussian, precomputed), every
construction parameter, every count, every `num`, `denom`, and every
`prf_output`, the value returned by `sample` (and `sample_half`) lies in
`[0, count]`.  The lower bound is inherent to the `ℕ` model; the theorem is
stated for all `prf_output : ℕ`, which covers `[0, 2⁶⁴)`. -/
theorem C4_sampler_range (base : BinomialSamplerTee) (lev : LeveledBinomialSamplerTee)
    (gauss : GaussianBinomialSamplerTee) (prec : PrecomputedBinomialSamplerTee)
    (level count num denom prf : ℕ) :
    base.sample count num denom prf ≤ count ∧
    lev.sample level count num denom prf ≤ count ∧
    gauss.sample count num denom prf ≤ count ∧
    prec.sample count num denom prf ≤ count ∧
    prec.sampleHalf count prf ≤ count :=
  ⟨base.sample_le_base count num denom prf, lev.sample_le_leveled level count num denom prf,
   gauss.sample_le_gauss count num denom prf, prec.sample_le_prec count num denom prf,
   prec.sampleHalf_le count prf⟩

/-! ## C7: leveled sampler agrees with the baseline -/

theorem ct_select_u64_zero (a b : ℕ) : ct_select_u64 0 a b = b := by
  unfold ct_select_u64
  norm_num

theorem ct_select_f64_zero (a b : ℝ) : ct_select_f64 0 a b = b := by
  unfold ct_select_f64
  norm_num

theorem isNew_le_one (a fnd kin : ℕ) (ha : a ≤ 1) (hfnd : fnd ≤ 1) (hkin : kin ≤ 1) :
    a &&& (1 - fnd) &&& kin ≤ 1 := by
  rw [mask_land a (1 - fnd) ha (by omega), mask_land _ kin (by omega) hkin]
  omega

theorem mask_or_le_one (fnd x : ℕ) (h : fnd ≤ 1) (hx : x ≤ 1) : fnd ||| x ≤ 1 := by
  rw [mask_lor _ _ h hx]
  omega

theorem ctStep_found_le (n : ℕ) (lpq u : ℝ) (st : ScanState) (k : ℕ)
    (h : st.found ≤ 1) : (ctStep n lpq u st k).found ≤ 1 := by
  unfold ctStep
  dsimp only
  exact mask_or_le_one _ _ h
    (isNew_le_one _ _ _ (ct_f64_le_le_one _ _) h (ct_le_u64_le_one _ _))

theorem ctStep_frozen (n : ℕ) (lpq u : ℝ) (st : ScanState) (k : ℕ) (hk : n < k)
    (hfnd : st.found ≤ 1) : ctStep n lpq u st k = st := by
  have hkin : ct_le_u64 k n = 0 := by
    unfold ct_le_u64
    rw [if_neg (by omega)]
  unfold ctStep
  dsimp only
  rw [hkin]
  simp only [ct_select_f64_zero, add_zero]
  have hmask : ct_f64_le u st.cdf &&& (1 - st.found) &&& 0 = 0 := by
    rw [mask_land _ _ (ct_f64_le_le_one _ _) (by omega), mask_land _ _ (by omega) (by omega)]
    exact Nat.min_zero _
  rw [hmask, ct_select_u64_zero]
  rw [mask_lor _ _ hfnd (by omega), Nat.max_zero]

theorem foldl_ctStep_found_le (n : ℕ) (lpq u : ℝ) (l : List ℕ) (init : ScanState)
    (h : init.found ≤ 1) : (l.foldl (ctStep n lpq u) init).found ≤ 1 :=
  foldl_preserves (fun st : ScanState => st.found ≤ 1) (ctStep n lpq u) l init h
    (fun st k hk => ctStep_found_le n lpq u st k hk)

theorem foldl_ctStep_stable (n : ℕ) (lpq u : ℝ) (init : ScanState)
    (hfnd : init.found ≤ 1) :
    ∀ b, n ≤ b →
      (scanIters b).foldl (ctStep n lpq u) init =
        (scanIters n).foldl (ctStep n lpq u) init := by
  intro b
  induction b with
  | zero =>
    intro hb
    have hn : n = 0 := by omega
    subst hn
    rfl
  | succ b ih =>
    intro hb
    rcases Nat.lt_or_ge n (b + 1) with hlt | hge
    · have hnb : n ≤ b := by omega
      have hsplit : scanIters (b + 1) = scanIters b ++ [b + 1] := by
        unfold scanIters
        rw [List.range_succ]
      rw [hsplit, List.foldl_append]
      simp only [List.foldl_cons, List.foldl_nil]
      rw [ctStep_frozen n lpq u _ (b + 1) hlt
        (foldl_ctStep_found_le n lpq u _ init hfnd)]
      exact ih hnb
    · have hn : n = b + 1 := by omega
      subst hn
      rfl

theorem logCdfScan_bound_irrel (b1 b2 n : ℕ) (p u : ℝ) (h1 : n ≤ b1) (h2 : n ≤ b2) :
    logCdfScan b1 n p u = logCdfScan b2 n p u := by
  unfold logCdfScan
  dsimp only
  rw [foldl_ctStep_stable n _ u _ (by simp) b1 h1,
    foldl_ctStep_stable n _ u _ (by simp) b2 h2]

/-- C7: for every `(count, num, denom, prf_output)` with
`count ≤ level_bounds[0]`, the leveled sampler at level 0 and the baseline
sampler constructed with `max_count ≥ count` return identical outputs: the
loop iterations past the clamped count are no-ops under the constant-time
masking, so both scans latch the same result. -/
theorem C7_leveled_matches_baseline (base : BinomialSamplerTee)
    (n m count num denom prf : ℕ)
    (hcount : count ≤ (LeveledBinomialSamplerTee.new n m).levelBound 0)
    (hbase : count ≤ base.maxCount) :
    (LeveledBinomialSamplerTee.new n m).sample 0 count num denom prf =
      base.sample count num denom prf := by
  set lev := LeveledBinomialSamplerTee.new n m with hlev
  have hnum : 0 < lev.numLevels := by
    show 0 < min (if m ≤ 1 then 1 else Nat.clog 2 m) MAX_TREE_DEPTH
    have : 0 < (if m ≤ 1 then 1 else Nat.clog 2 m) := by
      split
      · norm_num
      · next hm =>
        exact Nat.clog_pos (by norm_num) (by omega)
    simp only [MAX_TREE_DEPTH]
    omega
  have hlb : lev.levelBound 0 = lev.levelBounds 0 := by
    unfold LeveledBinomialSamplerTee.levelBound
    rw [if_pos hnum]
  rw [hlb] at hcount
  have hkeq : ∀ (p2 u : ℝ), lev.inverseCdfCt count (lev.levelBounds 0) p2 u =
      base.inverseCdfCt count p2 u := by
    intro p2 u
    unfold LeveledBinomialSamplerTee.inverseCdfCt BinomialSamplerTee.inverseCdfCt
    unfold ct_min_u64
    rw [Nat.min_eq_left hcount, Nat.min_eq_left hbase]
    exact logCdfScan_bound_irrel _ _ count p2 u hcount hbase
  by_cases h1 : denom = 0 ∨ num = 0
  · simp only [LeveledBinomialSamplerTee.sample, BinomialSamplerTee.sample, if_pos h1]
  · by_cases h2 : denom ≤ num
    · simp only [LeveledBinomialSamplerTee.sample, BinomialSamplerTee.sample,
        if_neg h1, if_pos h2]
    · simp only [LeveledBinomialSamplerTee.sample, BinomialSamplerTee.sample,
        if_neg h1, if_neg h2]
      rw [if_pos hnum, hkeq]

theorem C7_leveled_matches_baseline_witness :
    (LeveledBinomialSamplerTee.new 4 4).sample 0 3 1 2 9 =
      (BinomialSamplerTee.new 5).sample 3 1 2 9 := by
  have h4 : Nat.clog 2 4 = 2 := by
    rw [show (4 : ℕ) = 2 ^ 2 from by norm_num]
    exact Nat.clog_pow 2 2 (by norm_num)
  refine C7_leveled_matches_baseline (BinomialSamplerTee.new 5) 4 4 3 1 2 9 ?_ (by decide)
  show 3 ≤ (LeveledBinomialSamplerTee.new 4 4).levelBound 0
  simp only [LeveledBinomialSamplerTee.new, LeveledBinomialSamplerTee.levelBound, h4]
  norm_num [MAX_TREE_DEPTH, iterHalf]

/-! ## C8: precomputed table scan agrees with the log-space baseline

In the real-number model both scans latch the first `k ≤ n` with
`u ≤ P(X ≤ k)` for `X ~ Binomial(n, 1/2)`: the log-space recurrence
exponentiates back to exactly `C(n,k)·2⁻ⁿ`, and the table rows accumulate
the same values linearly. -/

theorem ct_le_u64_of_le {a b : ℕ} (h : a ≤ b) : ct_le_u64 a b = 1 := by
  unfold ct_le_u64
  rw [if_pos h]

theorem ct_le_u64_of_gt {a b : ℕ} (h : b < a) : ct_le_u64 a b = 0 := by
  unfold ct_le_u64
  rw [if_neg (by omega)]

theorem ct_select_u64_one (a b : ℕ) : ct_select_u64 1 a b = a := by
  unfold ct_select_u64
  norm_num

theorem ct_select_f64_one (a b : ℝ) : ct_select_f64 1 a b = a := by
  unfold ct_select_f64
  norm_num

theorem latchStep_found_le (n : ℕ) (f : ℕ → ℝ) (u : ℝ) (st : ℕ × ℕ) (k : ℕ)
    (h : st.2 ≤ 1) : (latchStep n f u st k).2 ≤ 1 := by
  unfold latchStep
  dsimp only
  exact mask_or_le_one _ _ h
    (isNew_le_one _ _ _ (ct_f64_le_le_one _ _) h (ct_le_u64_le_one _ _))

theorem foldl_latchStep_found_le (n : ℕ) (f : ℕ → ℝ) (u : ℝ) (l : List ℕ)
    (init : ℕ × ℕ) (h : init.2 ≤ 1) : (l.foldl (latchStep n f u) init).2 ≤ 1 :=
  foldl_preserves (fun st : ℕ × ℕ => st.2 ≤ 1) (latchStep n f u) l init h
    (fun st k hk => latchStep_found_le n f u st k hk)

theorem latchStep_frozen (n : ℕ) (f : ℕ → ℝ) (u : ℝ) (st : ℕ × ℕ) (k : ℕ)
    (hk : n < k) (hfnd : st.2 ≤ 1) : latchStep n f u st k = st := by
  unfold latchStep
  dsimp only
  rw [ct_le_u64_of_gt hk]
  have hmask : ct_f64_le u (f k) &&& (1 - st.2) &&& 0 = 0 := by
    rw [mask_land _ _ (ct_f64_le_le_one _ _) (by omega), mask_land _ _ (by omega) (by omega)]
    exact Nat.min_zero _
  rw [hmask, ct_select_u64_zero, mask_lor _ _ hfnd (by omega), Nat.max_zero]

theorem foldl_latchStep_stable (n : ℕ) (f : ℕ → ℝ) (u : ℝ) :
    ∀ b, n ≤ b →
      (scanIters b).foldl (latchStep n f u) (0, 0) =
        (scanIters n).foldl (latchStep n f u) (0, 0) := by
  intro b
  induction b with
  | zero =>
    intro hb
    have hn : n = 0 := by omega
    subst hn
    rfl
  | succ b ih =>
    intro hb
    rcases Nat.lt_or_ge n (b + 1) with hlt | hge
    · have hsplit : scanIters (b + 1) = scanIters b ++ [b + 1] := by
        unfold scanIters
        rw [List.range_succ]
      rw [hsplit, List.foldl_append]
      simp only [List.foldl_cons, List.foldl_nil]
      rw [latchStep_frozen n f u _ (b + 1) hlt
        (foldl_latchStep_found_le n f u _ (0, 0) (by norm_num))]
      exact ih (by omega)
    · have hn : n = b + 1 := by omega
      subst hn
      rfl

theorem foldl_latchStep_congr (n : ℕ) (f g : ℕ → ℝ) (u : ℝ)
    (hfg : ∀ k ≤ n, f k = g k) :
    ∀ (l : List ℕ), (∀ k ∈ l, k ≤ n) → ∀ (init : ℕ × ℕ),
      l.foldl (latchStep n f u) init = l.foldl (latchStep n g u) init := by
  intro l
  induction l with
  | nil =>
    intro _ init
    rfl
  | cons a t ih =>
    intro hmem init
    simp only [List.foldl_cons]
    have ha : a ≤ n := hmem a (by simp)
    have hstep : latchStep n f u init a = latchStep n g u init a := by
      unfold latchStep
      rw [hfg a ha]
    rw [hstep]
    exact ih (fun k hk => hmem k (by simp [hk])) _

theorem pmf_half_pos (n k : ℕ) (hk : k ≤ n) : (0 : ℝ) < (n.choose k : ℝ) * (1/2) ^ n := by
  have h := Nat.choose_pos hk
  positivity

theorem choose_step_real (n b : ℕ) (_h : b + 1 ≤ n) :
    (n.choose b : ℝ) * (1/2) ^ n * ((n - b : ℕ) : ℝ) / ((b + 1 : ℕ) : ℝ) =
      (n.choose (b + 1) : ℝ) * (1/2) ^ n := by
  have hc : (n.choose (b + 1) : ℝ) * ((b + 1 : ℕ) : ℝ) =
      (n.choose b : ℝ) * ((n - b : ℕ) : ℝ) := by
    exact_mod_cast Nat.choose_succ_right_eq n b
  have hb1 : ((b + 1 : ℕ) : ℝ) ≠ 0 := Nat.cast_ne_zero.mpr (by omega)
  rw [div_eq_iff hb1]
  have h2 := congrArg (fun t : ℝ => t * (1/2 : ℝ) ^ n) hc
  simp only at h2
  linarith [h2]

theorem binomCoeffSeq_eq_choose (n : ℕ) : ∀ k, k ≤ n → binomCoeffSeq n k = (n.choose k : ℝ) := by
  intro k
  induction k with
  | zero =>
    intro _
    simp [binomCoeffSeq]
  | succ k ih =>
    intro hk
    rw [binomCoeffSeq, ih (by omega)]
    have hc : (n.choose (k + 1) : ℝ) * ((k + 1 : ℕ) : ℝ) =
        (n.choose k : ℝ) * ((n - k : ℕ) : ℝ) := by
      exact_mod_cast Nat.choose_succ_right_eq n k
    have hb1 : ((k + 1 : ℕ) : ℝ) ≠ 0 := Nat.cast_ne_zero.mpr (by omega)
    rw [div_eq_iff hb1]
    linarith [hc]

theorem logCdfScanHalf_eq (bound n : ℕ) (u : ℝ) :
    logCdfScan bound n (1/2) u =
      ct_select_u64
        ((scanIters bound).foldl (ctStep n 0 u) ⟨(n : ℝ) * Real.log (1/2), 0, 0, 0⟩).found
        ((scanIters bound).foldl (ctStep n 0 u) ⟨(n : ℝ) * Real.log (1/2), 0, 0, 0⟩).result
        n := by
  unfold logCdfScan
  dsimp only
  rw [show (1 : ℝ) - 1/2 = 1/2 from by norm_num, sub_self]

theorem exp_n_log_half (n : ℕ) : Real.exp ((n : ℝ) * Real.log (1/2)) = (1/2 : ℝ) ^ n := by
  rw [← Real.log_pow, Real.exp_log (by positivity)]

theorem exp_neg_n_log_two (n : ℕ) : Real.exp (-((n : ℝ) * Real.log 2)) = ((2 : ℝ) ^ n)⁻¹ := by
  rw [Real.exp_neg, ← Real.log_pow, Real.exp_log (by positivity)]

theorem scanHalf_state (n : ℕ) (u : ℝ) :
    ∀ b, (scanIters b).foldl (ctStep n 0 u) ⟨(n : ℝ) * Real.log (1/2), 0, 0, 0⟩ =
      ⟨Real.log ((n.choose (min b n) : ℝ) * (1/2) ^ n),
       ∑ j ∈ Finset.range (min b n + 1), (n.choose j : ℝ) * (1/2) ^ n,
       ((scanIters b).foldl (latchStep n
         (fun k => ∑ j ∈ Finset.range (min k n + 1), (n.choose j : ℝ) * (1/2) ^ n) u)
         (0, 0)).1,
       ((scanIters b).foldl (latchStep n
         (fun k => ∑ j ∈ Finset.range (min k n + 1), (n.choose j : ℝ) * (1/2) ^ n) u)
         (0, 0)).2⟩ := by
  intro b
  induction b with
  | zero =>
    have hk0 : ct_le_u64 0 n = 1 := ct_le_u64_of_le (Nat.zero_le n)
    have hlog0 : Real.log ((n.choose (min 0 n) : ℝ) * (1/2) ^ n) =
        (n : ℝ) * Real.log (1/2) := by
      rw [Nat.zero_min, Nat.choose_zero_right, Nat.cast_one, one_mul, Real.log_pow]
    have hsum0 : ∑ j ∈ Finset.range (min 0 n + 1), (n.choose j : ℝ) * (1/2) ^ n =
        (1/2 : ℝ) ^ n := by
      rw [Nat.zero_min, Finset.sum_range_one, Nat.choose_zero_right, Nat.cast_one, one_mul]
    have hIters : scanIters 0 = [0] := rfl
    rw [hIters]
    simp only [List.foldl_cons, List.foldl_nil]
    unfold ctStep latchStep
    simp [hk0, hlog0, hsum0, exp_n_log_half, exp_neg_n_log_two, ct_select_f64_one]
  | succ b ih =>
    have hsplit : scanIters (b + 1) = scanIters b ++ [b + 1] := by
      unfold scanIters
      rw [List.range_succ]
    rw [hsplit, List.foldl_append, List.foldl_append]
    simp only [List.foldl_cons, List.foldl_nil]
    rw [ih]
    rcases le_or_lt (b + 1) n with hble | hbgt
    · have hminb : min b n = b := by omega
      have hminb1 : min (b + 1) n = b + 1 := by omega
      rw [hminb, hminb1]
      have hnb : (0 : ℝ) < ((n - b : ℕ) : ℝ) := by
        have h0 : 0 < n - b := by omega
        exact_mod_cast h0
      have hx : ((n.choose b : ℝ) * (1/2 : ℝ) ^ n) ≠ 0 :=
        ne_of_gt (pmf_half_pos n b (by omega))
      have hy : (((n - b : ℕ) : ℝ) / ((b + 1 : ℕ) : ℝ)) ≠ 0 := by
        have hb1 : (0 : ℝ) < ((b + 1 : ℕ) : ℝ) := by positivity
        positivity
      have hlog1 : Real.log ((n.choose b : ℝ) * (1/2) ^ n) +
          (Real.log (((n - b : ℕ) : ℝ) / ((b + 1 : ℕ) : ℝ)) + 0) =
          Real.log ((n.choose (b + 1) : ℝ) * (1/2) ^ n) := by
        rw [add_zero, ← Real.log_mul hx hy]
        rw [show (n.choose b : ℝ) * (1/2) ^ n * (((n - b : ℕ) : ℝ) / ((b + 1 : ℕ) : ℝ)) =
            (n.choose b : ℝ) * (1/2) ^ n * ((n - b : ℕ) : ℝ) / ((b + 1 : ℕ) : ℝ) from by
          ring]
        rw [choose_step_real n b hble]
      have hcdf1 : (∑ j ∈ Finset.range (b + 1), (n.choose j : ℝ) * (1/2) ^ n) +
          Real.exp (Real.log ((n.choose (b + 1) : ℝ) * (1/2) ^ n)) =
          ∑ j ∈ Finset.range (b + 1 + 1), (n.choose j : ℝ) * (1/2) ^ n := by
        rw [Real.exp_log (pmf_half_pos n (b + 1) hble)]
        exact (Finset.sum_range_succ _ (b + 1)).symm
      have hkb : ct_le_u64 (b + 1) n = 1 := ct_le_u64_of_le hble
      unfold ctStep latchStep
      dsimp only
      simp only [hkb, hminb1, ct_select_f64_one, ct_select_u64_one, ct_saturating_sub_u64,
        Nat.add_sub_cancel, if_neg (Nat.succ_ne_zero b)]
      rw [hlog1, hcdf1]
    · have hminb : min b n = n := by omega
      have hminb1 : min (b + 1) n = n := by omega
      rw [hminb, hminb1]
      rw [ctStep_frozen n 0 u _ (b + 1) hbgt
        (foldl_latchStep_found_le n _ u (scanIters b) (0, 0) (by norm_num))]
      rw [latchStep_frozen n _ u _ (b + 1) hbgt
        (foldl_latchStep_found_le n _ u (scanIters b) (0, 0) (by norm_num))]

theorem cdfAcc_eq_sum (n : ℕ) :
    ∀ k, k ≤ n → cdfAcc n k = ∑ j ∈ Finset.range (k + 1), (n.choose j : ℝ) * (1/2) ^ n := by
  intro k
  induction k with
  | zero =>
    intro _
    rw [cdfAcc, binomCoeffSeq_eq_choose n 0 (Nat.zero_le n), Finset.sum_range_one]
  | succ k ih =>
    intro hk
    rw [cdfAcc, ih (by omega), binomCoeffSeq_eq_choose n (k + 1) hk]
    exact (Finset.sum_range_succ _ (k + 1)).symm

theorem CDF_TABLES_eq_sum (n k : ℕ) (hk : k ≤ n) :
    CDF_TABLES n k = ∑ j ∈ Finset.range (k + 1), (n.choose j : ℝ) * (1/2) ^ n := by
  unfold CDF_TABLES
  by_cases h0 : n = 0
  · subst h0
    have hk0 : k = 0 := by omega
    subst hk0
    simp
  · rw [if_neg h0, if_pos hk]
    exact cdfAcc_eq_sum n k hk

theorem logCdfScanHalf_latch (bound n : ℕ) (u : ℝ) :
    logCdfScan bound n (1/2) u =
      ct_select_u64
        (((scanIters bound).foldl (latchStep n
          (fun k => ∑ j ∈ Finset.range (min k n + 1), (n.choose j : ℝ) * (1/2) ^ n) u)
          (0, 0)).2)
        (((scanIters bound).foldl (latchStep n
          (fun k => ∑ j ∈ Finset.range (min k n + 1), (n.choose j : ℝ) * (1/2) ^ n) u)
          (0, 0)).1)
        n := by
  rw [logCdfScanHalf_eq, scanHalf_state]

theorem precomputed_latch (prec : PrecomputedBinomialSamplerTee) (n : ℕ) (u : ℝ)
    (hn : n ≤ PRECOMPUTE_MAX_N) :
    prec.inverseCdfPrecomputedCt n u =
      ct_select_u64
        (((scanIters n).foldl (latchStep n
          (fun k => ∑ j ∈ Finset.range (min k n + 1), (n.choose j : ℝ) * (1/2) ^ n) u)
          (0, 0)).2)
        (((scanIters n).foldl (latchStep n
          (fun k => ∑ j ∈ Finset.range (min k n + 1), (n.choose j : ℝ) * (1/2) ^ n) u)
          (0, 0)).1)
        n := by
  unfold PrecomputedBinomialSamplerTee.inverseCdfPrecomputedCt
  dsimp only
  rw [Nat.min_eq_left hn]
  rw [foldl_latchStep_stable n (CDF_TABLES n) u PRECOMPUTE_MAX_N hn]
  rw [foldl_latchStep_congr n (CDF_TABLES n)
    (fun k => ∑ j ∈ Finset.range (min k n + 1), (n.choose j : ℝ) * (1/2) ^ n) u
    (fun k hk => by
      show CDF_TABLES n k = ∑ j ∈ Finset.range (min k n + 1), (n.choose j : ℝ) * (1/2) ^ n
      rw [Nat.min_eq_left hk]
      exact CDF_TABLES_eq_sum n k hk)
    (scanIters n)
    (fun k hk => by
      unfold scanIters at hk
      rw [List.mem_range] at hk
      omega)
    (0, 0)]

theorem prfUniform_lt_one (prf : ℕ) (hprf : prf < 2 ^ 64) : prfUniform prf ≤ 1 := by
  unfold prfUniform
  rw [div_le_one (by positivity)]
  have hc : (prf : ℝ) ≤ (2 : ℝ) ^ 64 - 1 := by
    have h1 : (prf : ℝ) ≤ ((2 ^ 64 - 1 : ℕ) : ℝ) := by
      exact_mod_cast Nat.le_sub_one_of_lt hprf
    calc (prf : ℝ) ≤ ((2 ^ 64 - 1 : ℕ) : ℝ) := h1
      _ = (2 : ℝ) ^ 64 - 1 := by push_cast; ring
  linarith

/-- C8: for every `n ∈ [0, 256]` and every `prf_output < 2⁶⁴`,
`PrecomputedBinomialSamplerTee::sample_half(n, prf_output)` — the oblivious
scan of the precomputed linear-space CDF table — returns exactly the value
of the exact log-space baseline `BinomialSamplerTee::sample(n, 1, 2,
prf_output)` (baseline constructed with `max_count ≥ n`): in the exact-real
model both scans latch the least `k ≤ n` with `u ≤ P(Bin(n,1/2) ≤ k)`. -/
theorem C8_precomputed_matches_baseline (prec : PrecomputedBinomialSamplerTee)
    (base : BinomialSamplerTee) (count prf : ℕ) (hcount : count ≤ PRECOMPUTE_MAX_N)
    (hbase : count ≤ base.maxCount) (hprf : prf < 2 ^ 64) :
    prec.sampleHalf count prf = base.sample count 1 2 prf := by
  have h1 : ¬((2 : ℕ) = 0 ∨ (1 : ℕ) = 0) := by norm_num
  have h2 : ¬((2 : ℕ) ≤ 1) := by norm_num
  have hp : ((1 : ℕ) : ℝ) / ((2 : ℕ) : ℝ) = 1/2 := by norm_num
  have hcompl : ¬((1 : ℝ)/2 < ((1 : ℕ) : ℝ) / ((2 : ℕ) : ℝ)) := by
    rw [hp]
    exact lt_irrefl _
  rw [BinomialSamplerTee.sample, if_neg h1, if_neg h2]
  simp only [if_neg hcompl]
  rw [PrecomputedBinomialSamplerTee.sampleHalf]
  simp only [if_pos hcount]
  rw [precomputed_latch prec count (prfUniform prf) hcount]
  rw [BinomialSamplerTee.inverseCdfCt]
  unfold ct_min_u64
  rw [Nat.min_eq_left hbase, hp, logCdfScanHalf_latch]
  rw [foldl_latchStep_stable count _ (prfUniform prf) base.maxCount hbase]
  by_cases hzero : count = 0
  · subst hzero
    have hIters : scanIters 0 = [0] := rfl
    rw [hIters]
    simp only [List.foldl_cons, List.foldl_nil]
    unfold latchStep ct_eq_u64
    have hg0 : ∑ j ∈ Finset.range (min 0 0 + 1), ((0 : ℕ).choose j : ℝ) * (1/2) ^ 0 = 1 := by
      simp
    have hule : ct_f64_le (prfUniform prf) 1 = 1 := by
      unfold ct_f64_le
      rw [if_pos (prfUniform_lt_one prf hprf)]
    simp [hg0, hule, ct_select_u64]
  · have hne : ct_eq_u64 count 0 = 0 := by
      unfold ct_eq_u64
      rw [if_neg hzero]
    rw [hne, ct_select_u64_zero]

/-! ## C6: symmetry reduction — counterexample on the Gaussian path and the
amended claim for the exact log-space paths -/

theorem log_ten_bounds : (2.2794 : ℝ) < Real.log 10 ∧ Real.log 10 < 2.3295 := by
  have h10 : Real.log (10 : ℝ) = 3 * Real.log 2 + Real.log (5/4) := by
    rw [show (10 : ℝ) = 2 ^ 3 * (5/4) from by norm_num,
      Real.log_mul (by norm_num) (by norm_num), Real.log_pow]
    norm_num
  have h2lo := Real.log_two_gt_d9
  have h2hi := Real.log_two_lt_d9
  have h54hi : Real.log (5/4 : ℝ) ≤ 1/4 := by
    have h := Real.log_le_sub_one_of_pos (show (0:ℝ) < 5/4 by norm_num)
    linarith
  have h54lo : (1/5 : ℝ) ≤ Real.log (5/4) := by
    have h := Real.log_le_sub_one_of_pos (show (0:ℝ) < 4/5 by norm_num)
    have h2 : Real.log (5/4 : ℝ) = - Real.log (4/5) := by
      rw [show (5/4 : ℝ) = (4/5)⁻¹ from by norm_num, Real.log_inv]
    linarith
  constructor <;> [skip; skip] <;> rw [h10] <;> linarith

theorem t0_bounds :
    (8.26 : ℝ) < Real.sqrt (-2 * Real.log (1/10 ^ 15)) ∧
      Real.sqrt (-2 * Real.log (1/10 ^ 15)) < 8.36 := by
  have harg : (-2 : ℝ) * Real.log (1/10 ^ 15) = 30 * Real.log 10 := by
    rw [show ((1:ℝ)/10 ^ 15) = ((10:ℝ) ^ 15)⁻¹ from by norm_num, Real.log_inv,
      Real.log_pow]
    push_cast
    ring
  obtain ⟨hlo, hhi⟩ := log_ten_bounds
  rw [harg]
  constructor
  · rw [Real.lt_sqrt (by norm_num)]
    nlinarith
  · rw [Real.sqrt_lt' (by norm_num)]
    nlinarith

theorem zneg_bounds (t : ℝ) (h1 : (8.26 : ℝ) < t) (h2 : t < 8.36) :
    (7.88 : ℝ) < t - (AS_C0 + t * (AS_C1 + t * AS_C2)) /
        (1 + t * (AS_D1 + t * (AS_D2 + t * AS_D3))) ∧
      t - (AS_C0 + t * (AS_C1 + t * AS_C2)) /
        (1 + t * (AS_D1 + t * (AS_D2 + t * AS_D3))) < 8 := by
  simp only [AS_C0, AS_C1, AS_C2, AS_D1, AS_D2, AS_D3]
  have hstep : (0 : ℝ) < (t - 8.26) * (8.36 - t) := by nlinarith
  have hN_lo : (9.85 : ℝ) < 2.515517 + t * (0.802853 + t * 0.010328) := by nlinarith
  have hN_hi : 2.515517 + t * (0.802853 + t * 0.010328) < (9.95 : ℝ) := by nlinarith
  have hD_lo : (26.48 : ℝ) < 1 + t * (1.432788 + t * (0.189269 + t * 0.001308)) := by
    nlinarith [sq_nonneg (t - 8.26), sq_nonneg (8.36 - t), hstep,
      mul_pos hstep (show (0:ℝ) < t from by linarith)]
  have hD_hi : 1 + t * (1.432788 + t * (0.189269 + t * 0.001308)) < (26.98 : ℝ) := by
    nlinarith [sq_nonneg (t - 8.26), sq_nonneg (8.36 - t), hstep,
      mul_pos hstep (show (0:ℝ) < t from by linarith)]
  have hDpos : (0 : ℝ) < 1 + t * (1.432788 + t * (0.189269 + t * 0.001308)) := by linarith
  have hq_hi : (2.515517 + t * (0.802853 + t * 0.010328)) /
      (1 + t * (1.432788 + t * (0.189269 + t * 0.001308))) < 0.3758 := by
    rw [div_lt_iff₀ hDpos]
    nlinarith
  have hq_lo : (0.365 : ℝ) < (2.515517 + t * (0.802853 + t * 0.010328)) /
      (1 + t * (1.432788 + t * (0.189269 + t * 0.001308))) := by
    rw [lt_div_iff₀ hDpos]
    nlinarith
  constructor <;> linarith

theorem invNormCdf_at_u0 (s : GaussianBinomialSamplerTee) :
    s.invNormCdfCt (prfUniform 0) =
      -(Real.sqrt (-2 * Real.log (1/10 ^ 15)) -
        (AS_C0 + Real.sqrt (-2 * Real.log (1/10 ^ 15)) *
          (AS_C1 + Real.sqrt (-2 * Real.log (1/10 ^ 15)) * AS_C2)) /
        (1 + Real.sqrt (-2 * Real.log (1/10 ^ 15)) *
          (AS_D1 + Real.sqrt (-2 * Real.log (1/10 ^ 15)) *
            (AS_D2 + Real.sqrt (-2 * Real.log (1/10 ^ 15)) * AS_D3)))) := by
  unfold GaussianBinomialSamplerTee.invNormCdfCt
  dsimp only
  have hupper : ct_f64_lt (1/2) (prfUniform 0) = 0 := by
    unfold ct_f64_lt
    rw [if_neg (by unfold prfUniform; norm_num)]
  rw [hupper, ct_select_f64_zero, ct_select_f64_zero]
  have hmax : max (prfUniform 0) ((1 : ℝ)/10 ^ 15) = 1/10 ^ 15 :=
    max_eq_right (by unfold prfUniform; norm_num)
  rw [hmax]

theorem invNormCdf_u0_bounds (s : GaussianBinomialSamplerTee) :
    (-8 : ℝ) < s.invNormCdfCt (prfUniform 0) ∧
      s.invNormCdfCt (prfUniform 0) < -7.88 := by
  rw [invNormCdf_at_u0]
  obtain ⟨ht1, ht2⟩ := t0_bounds
  obtain ⟨hz1, hz2⟩ := zneg_bounds _ ht1 ht2
  constructor <;> linarith

theorem round_clamp_le (x : ℝ) (n : ℤ) (b : ℕ) (hx : x + 1/2 < (b : ℝ) + 1) :
    (min (max (round x) 0) n).toNat ≤ b := by
  have h1 : round x ≤ (b : ℤ) := by
    rw [round_eq]
    have h2 := Int.floor_lt.mpr (show x + 1/2 < (((b : ℤ) + 1 : ℤ) : ℝ) from by
      push_cast
      linarith)
    omega
  omega

theorem round_clamp_eq_zero (x : ℝ) (n : ℤ) (_hn : 0 ≤ n) (hx : x + 1/2 < 0) :
    (min (max (round x) 0) n).toNat = 0 := by
  have h1 : round x < 0 := by
    rw [round_eq]
    exact Int.floor_lt.mpr (show x + 1/2 < (((0 : ℤ)) : ℝ) from by push_cast; linarith)
  omega

theorem sampleGaussianCt_34_le (s : GaussianBinomialSamplerTee) (p : ℝ) (hp : p = 3/4) :
    s.sampleGaussianCt 100 p (prfUniform 0) ≤ 41 := by
  subst hp
  obtain ⟨hz1, hz2⟩ := invNormCdf_u0_bounds s
  unfold GaussianBinomialSamplerTee.sampleGaussianCt
  dsimp only
  have hargeq : ((100 : ℕ) : ℝ) * (3/4) * (1 - 3/4) = 75/4 := by push_cast; norm_num
  have hmu : ((100 : ℕ) : ℝ) * (3/4 : ℝ) = 75 := by push_cast; norm_num
  rw [hargeq, hmu]
  have hsig1 : (4.33 : ℝ) < Real.sqrt (75/4) := by
    rw [Real.lt_sqrt (by norm_num)]
    norm_num
  have hsig2 : Real.sqrt (75/4) < 4.34 := by
    rw [Real.sqrt_lt' (by norm_num)]
    norm_num
  apply round_clamp_le
  have hprod : Real.sqrt (75/4) * s.invNormCdfCt (prfUniform 0) < -33.5 := by
    nlinarith [mul_pos (sub_pos.mpr hsig1)
      (show (0 : ℝ) < -s.invNormCdfCt (prfUniform 0) - 7.88 from by linarith)]
  push_cast
  linarith

theorem sampleGaussianCt_14_eq_zero (s : GaussianBinomialSamplerTee) (p : ℝ)
    (hp : p = 1/4) : s.sampleGaussianCt 100 p (prfUniform 0) = 0 := by
  subst hp
  obtain ⟨hz1, hz2⟩ := invNormCdf_u0_bounds s
  unfold GaussianBinomialSamplerTee.sampleGaussianCt
  dsimp only
  have hargeq : ((100 : ℕ) : ℝ) * (1/4) * (1 - 1/4) = 75/4 := by push_cast; norm_num
  have hmu : ((100 : ℕ) : ℝ) * (1/4 : ℝ) = 25 := by push_cast; norm_num
  rw [hargeq, hmu]
  have hsig1 : (4.33 : ℝ) < Real.sqrt (75/4) := by
    rw [Real.lt_sqrt (by norm_num)]
    norm_num
  have hsig2 : Real.sqrt (75/4) < 4.34 := by
    rw [Real.sqrt_lt' (by norm_num)]
    norm_num
  apply round_clamp_eq_zero _ _ (by norm_num)
  have hprod : Real.sqrt (75/4) * s.invNormCdfCt (prfUniform 0) < -33.5 := by
    nlinarith [mul_pos (sub_pos.mpr hsig1)
      (show (0 : ℝ) < -s.invNormCdfCt (prfUniform 0) - 7.88 from by linarith)]
  linarith

theorem gauss_sample_34 (s : GaussianBinomialSamplerTee) :
    s.sample 100 3 4 0 =
      s.sampleGaussianCt 100 (((3 : ℕ) : ℝ) / ((4 : ℕ) : ℝ)) (prfUniform 0) := by
  unfold GaussianBinomialSamplerTee.sample
  rw [if_neg (by norm_num), if_neg (by norm_num)]
  dsimp only
  have hnp : ct_f64_lt GAUSSIAN_THRESHOLD
      (((100 : ℕ) : ℝ) * (((3 : ℕ) : ℝ) / ((4 : ℕ) : ℝ))) = 1 := by
    unfold ct_f64_lt GAUSSIAN_THRESHOLD
    rw [if_pos (by push_cast; norm_num)]
  have hnq : ct_f64_lt GAUSSIAN_THRESHOLD
      (((100 : ℕ) : ℝ) * (1 - ((3 : ℕ) : ℝ) / ((4 : ℕ) : ℝ))) = 1 := by
    unfold ct_f64_lt GAUSSIAN_THRESHOLD
    rw [if_pos (by push_cast; norm_num)]
  rw [hnp, hnq, show (1 &&& 1 : ℕ) = 1 from rfl, ct_select_u64_one]

theorem gauss_sample_14 (s : GaussianBinomialSamplerTee) :
    s.sample 100 1 4 0 =
      s.sampleGaussianCt 100 (((1 : ℕ) : ℝ) / ((4 : ℕ) : ℝ)) (prfUniform 0) := by
  unfold GaussianBinomialSamplerTee.sample
  rw [if_neg (by norm_num), if_neg (by norm_num)]
  dsimp only
  have hnp : ct_f64_lt GAUSSIAN_THRESHOLD
      (((100 : ℕ) : ℝ) * (((1 : ℕ) : ℝ) / ((4 : ℕ) : ℝ))) = 1 := by
    unfold ct_f64_lt GAUSSIAN_THRESHOLD
    rw [if_pos (by push_cast; norm_num)]
  have hnq : ct_f64_lt GAUSSIAN_THRESHOLD
      (((100 : ℕ) : ℝ) * (1 - ((1 : ℕ) : ℝ) / ((4 : ℕ) : ℝ))) = 1 := by
    unfold ct_f64_lt GAUSSIAN_THRESHOLD
    rw [if_pos (by push_cast; norm_num)]
  rw [hnp, hnq, show (1 &&& 1 : ℕ) = 1 from rfl, ct_select_u64_one]

/-- C6 (counterexample): the claim fails on the Gaussian path at the concrete
input `count = 100, num = 3, denom = 4, prf_output = 0`.  The sampler takes
the Gaussian branch (np = 75 > 10, n(1-p) = 25 > 10) and returns a value of
at most 41 (the quantile is about 40.6), whereas `count` minus the Gaussian
inverse-CDF draw for the complementary probability 1/4 at the same `u` is
`100 - 0 = 100`: the Gaussian path applies no complement transformation. -/
theorem C6_symmetry_counterexample :
    ((GaussianBinomialSamplerTee.new 1024).sample 100 3 4 0 ≠
      100 - (GaussianBinomialSamplerTee.new 1024).sampleGaussianCt 100
        (1 - ((3 : ℕ) : ℝ) / ((4 : ℕ) : ℝ)) (prfUniform 0)) ∧
    ((GaussianBinomialSamplerTee.new 1024).sample 100 3 4 0 ≠
      100 - (GaussianBinomialSamplerTee.new 1024).sample 100 1 4 0) := by
  have hA := gauss_sample_34 (GaussianBinomialSamplerTee.new 1024)
  have hB := gauss_sample_14 (GaussianBinomialSamplerTee.new 1024)
  have hle := sampleGaussianCt_34_le (GaussianBinomialSamplerTee.new 1024)
    (((3 : ℕ) : ℝ) / ((4 : ℕ) : ℝ)) (by push_cast; norm_num)
  have hz1 := sampleGaussianCt_14_eq_zero (GaussianBinomialSamplerTee.new 1024)
    (1 - ((3 : ℕ) : ℝ) / ((4 : ℕ) : ℝ)) (by push_cast; norm_num)
  have hz2 := sampleGaussianCt_14_eq_zero (GaussianBinomialSamplerTee.new 1024)
    (((1 : ℕ) : ℝ) / ((4 : ℕ) : ℝ)) (by push_cast; norm_num)
  constructor
  · rw [hA, hz1]
    omega
  · rw [hA, hB, hz2]
    omega

/-- C6 (amended): every exact log-space sampler path applies the symmetry
reduction — for `num/denom > 1/2` the baseline and leveled `sample`, the
precomputed sampler's fallback path, and the Gaussian sampler's exact
fallback return `count` minus the inverse-CDF draw for the complementary
probability `1 - num/denom` at the same uniform `u` (the two fallbacks
complement around the clamped count, hence the `count ≤ fallback_max_count`
hypotheses); the Gaussian sampler's Gaussian path does not satisfy this. -/
theorem C6_amended_symmetry (base : BinomialSamplerTee) (lev : LeveledBinomialSamplerTee)
    (gauss : GaussianBinomialSamplerTee) (prec : PrecomputedBinomialSamplerTee)
    (level count num denom prf : ℕ)
    (hnum : num < denom)
    (hp : (1 : ℝ)/2 < (num : ℝ) / (denom : ℝ))
    (hgfb : count ≤ gauss.fallbackMaxCount) (hpfb : count ≤ prec.fallbackMaxCount) :
    base.sample count num denom prf =
      count - base.inverseCdfCt count (1 - (num : ℝ) / (denom : ℝ)) (prfUniform prf) ∧
    lev.sample level count num denom prf =
      count - lev.inverseCdfCt count
        (lev.selectedBound level) (1 - (num : ℝ) / (denom : ℝ)) (prfUniform prf) ∧
    prec.sample count num denom prf =
      count - logCdfScan prec.fallbackMaxCount count
        (1 - (num : ℝ) / (denom : ℝ)) (prfUniform prf) ∧
    gauss.sampleExactCt count ((num : ℝ) / (denom : ℝ)) (prfUniform prf) =
      count - logCdfScan gauss.fallbackMaxCount count
        (1 - (num : ℝ) / (denom : ℝ)) (prfUniform prf) := by
  have hd0 : denom ≠ 0 := by
    intro h
    subst h
    rw [Nat.cast_zero, div_zero] at hp
    linarith
  have hn0 : num ≠ 0 := by
    intro h
    subst h
    rw [Nat.cast_zero, zero_div] at hp
    linarith
  have h1 : ¬(denom = 0 ∨ num = 0) := by
    rintro (h | h) <;> [exact hd0 h; exact hn0 h]
  have h2 : ¬(denom ≤ num) := by omega
  refine ⟨?_, ?_, ?_, ?_⟩
  · rw [BinomialSamplerTee.sample, if_neg h1, if_neg h2]
    dsimp only
    simp only [if_pos hp]
    by_cases hc : count = 0
    · subst hc
      simp [ct_eq_u64, ct_select_u64]
    · rw [show ct_eq_u64 count 0 = 0 from by unfold ct_eq_u64; rw [if_neg hc],
        ct_select_u64_zero]
  · rw [LeveledBinomialSamplerTee.sample, if_neg h1, if_neg h2]
    dsimp only
    simp only [if_pos hp]
    by_cases hc : count = 0
    · subst hc
      simp [ct_eq_u64, ct_select_u64]
    · rw [show ct_eq_u64 count 0 = 0 from by unfold ct_eq_u64; rw [if_neg hc],
        ct_select_u64_zero]
      rfl
  · have hhalf : ¬(num * 2 = denom ∧ count ≤ PRECOMPUTE_MAX_N) := by
      rintro ⟨hh, _⟩
      subst hh
      have hnum0 : ((num : ℕ) : ℝ) ≠ 0 := Nat.cast_ne_zero.mpr hn0
      rw [show (((num * 2 : ℕ)) : ℝ) = (num : ℝ) * 2 from by push_cast; ring] at hp
      rw [div_mul_eq_div_div, div_self hnum0] at hp
      linarith
    rw [PrecomputedBinomialSamplerTee.sample, if_neg h1, if_neg h2, if_neg hhalf]
    unfold PrecomputedBinomialSamplerTee.inverseCdfFallbackCt
    dsimp only
    simp only [if_pos hp]
    unfold ct_min_u64
    rw [Nat.min_eq_left hpfb]
  · unfold GaussianBinomialSamplerTee.sampleExactCt
    dsimp only
    simp only [if_pos hp]
    unfold ct_min_u64
    rw [Nat.min_eq_left hgfb]

theorem C6_amended_symmetry_witness :
    (BinomialSamplerTee.new 9).sample 5 3 4 7 =
      5 - (BinomialSamplerTee.new 9).inverseCdfCt 5
        (1 - ((3 : ℕ) : ℝ) / ((4 : ℕ) : ℝ)) (prfUniform 7) :=
  (C6_amended_symmetry (BinomialSamplerTee.new 9) (LeveledBinomialSamplerTee.new 8 4)
    (GaussianBinomialSamplerTee.new 9) (PrecomputedBinomialSamplerTee.new 9) 0 5 3 4 7
    (by norm_num) (by push_cast; norm_num) (by decide) (by decide)).1

theorem C8_precomputed_matches_baseline_witness :
    (PrecomputedBinomialSamplerTee.new 300).sampleHalf 5 123 =
      (BinomialSamplerTee.new 10).sample 5 1 2 123 :=
  C8_precomputed_matches_baseline (PrecomputedBinomialSamplerTee.new 300)
    (BinomialSamplerTee.new 10) 5 123 (by decide) (by decide) (by norm_num)
